import Mathlib

/-!
CCCache: the LRU eviction engine (`lru/lru.go`).

A shallow embedding of the cache of `lru/lru.go` and of the part of Go's
`container/list` it uses.

Modelling conventions.

* `*list.Element` pointers are natural numbers (`Element.ptr`); the recency list
  `doubleList` is the Lean list of its nodes, front (most recently used) first.
  `nextPtr` is the allocator: the pointer the next `PushFront` hands out.
* The Go `map[string]*list.Element` is an association list with unique keys
  (`mapGet`, `mapSet`, `mapDelete`).
* Integers come in two layers.  `RemoveOldest`, `addEntry`, `Add`, `run` compute
  the counter `used` in `Int`, without wrap-around.  `RemoveOldest64`,
  `addEntry64`, `Add64`, `run64` compute it as the machine does: `int` (taken
  to be 64 bits wide) and `int64` results are reduced by `wrap64`.  The two
  layers agree as long as the sizes passed to `Add` are non-negative and sum to
  at most `maxInt64` (`run64_eq_run`).
* `len(key)` is the byte length of the string, `String.utf8ByteSize`.
* The callback is a flag (`callback = true`: a non-nil function was supplied)
  together with `events`, the log of the calls made to it, oldest first.
* A Go `for` loop is a function with fuel; `none` is "fuel exhausted".
-/

namespace CCCache

/-! ## Data model -/

/-- Interface `Value` of `lru.go`: a type with a `Len() int` method. -/
class Value (V : Type) where
  /-- Method `Len() int`. -/
  Len : V → Int

/-- Struct `entry` of `lru.go`: a key with its value. -/
structure entry (V : Type) where
  key : String
  value : V

/-- A node of `container/list`: `ptr` is the address of the node, `kv` the
`*entry` stored in its `Value` field. -/
structure Element (V : Type) where
  ptr : Nat
  kv : entry V

/-- Struct `Cache` of `lru.go`, with the allocator `nextPtr` and the log
`events` of callback invocations. -/
structure Cache (V : Type) where
  doubleList : List (Element V)
  hashmap : List (String × Nat)
  capacity : Int
  used : Int
  callback : Bool
  events : List (String × V)
  nextPtr : Nat

/-! ## Go maps -/

/-- Map read `m[k]` in the comma-ok form: `none` when the key is absent. -/
def mapGet : List (String × Nat) → String → Option Nat
  | [], _ => none
  | (k', p) :: m, k => if k' = k then some p else mapGet m k

/-- Builtin `delete(m, k)`. -/
def mapDelete (m : List (String × Nat)) (k : String) : List (String × Nat) :=
  m.filter (fun e => decide (e.1 ≠ k))

/-- Map write `m[k] = p`. -/
def mapSet (m : List (String × Nat)) (k : String) (p : Nat) : List (String × Nat) :=
  (k, p) :: mapDelete m k

/-! ## The part of `container/list` used by the cache -/

/-- Dereference of a node pointer: the node of the list at address `p`. -/
def deref {V : Type} (l : List (Element V)) (p : Nat) : Option (Element V) :=
  l.find? (fun e => decide (e.ptr = p))

/-- Method `List.Back`: the last node, `none` for Go's nil on an empty list. -/
def Back {V : Type} (l : List (Element V)) : Option (Element V) :=
  l.getLast?

/-- Method `List.Remove(e)`: unlinks the node at address `p`. -/
def Remove {V : Type} (l : List (Element V)) (p : Nat) : List (Element V) :=
  l.eraseP (fun e => decide (e.ptr = p))

/-- Method `List.MoveToFront(e)`: a node of the list is unlinked and linked
again at the front; nothing happens for a node that is not in the list. -/
def MoveToFront {V : Type} (l : List (Element V)) (p : Nat) : List (Element V) :=
  match deref l p with
  | some e => e :: Remove l p
  | none => l

/-- Method `List.PushFront(v)`: a new node at address `p` holding `kv`. -/
def PushFront {V : Type} (l : List (Element V)) (p : Nat) (kv : entry V) :
    List (Element V) :=
  { ptr := p, kv := kv } :: l

/-- Assignment `kv.value = value` through the `*entry` of the node at `p`. -/
def setValue {V : Type} (l : List (Element V)) (p : Nat) (v : V) : List (Element V) :=
  l.map (fun e => if e.ptr = p then { e with kv := { e.kv with value := v } } else e)

/-! ## The cache operations -/

/-- Function `NewCache` (lru.go:42-50). -/
def NewCache (V : Type) (capacity : Int) (callback : Bool) : Cache V :=
  { doubleList := [], hashmap := [], capacity := capacity, used := 0,
    callback := callback, events := [], nextPtr := 0 }

/-- Method `Cache.Get` (lru.go:54-64): the new state and the pair
`(value, ok)`; `none` is the nil interface value.  A pointer read from the
index always names a node of the list (`WF`, below), so the inner `none`
branch is never taken from `NewCache`. -/
def Get {V : Type} (c : Cache V) (key : String) : Cache V × (Option V × Bool) :=
  match mapGet c.hashmap key with
  | some p =>
    match deref c.doubleList p with
    | some element =>
      ({ c with doubleList := MoveToFront c.doubleList p }, (some element.kv.value, true))
    | none => (c, (none, true))
  | none => (c, (none, false))

/-- Method `Cache.RemoveOldest` (lru.go:68-84). -/
def RemoveOldest {V : Type} [Value V] (c : Cache V) : Cache V :=
  match Back c.doubleList with
  | some element =>
    { c with
      doubleList := Remove c.doubleList element.ptr
      hashmap := mapDelete c.hashmap element.kv.key
      used := c.used - ((element.kv.key.utf8ByteSize : Int) + Value.Len element.kv.value)
      events :=
        if c.callback then c.events ++ [(element.kv.key, element.kv.value)] else c.events }
  | none => c

/-- The `if`/`else` of `Cache.Add` (lru.go:88-108): update of a present key,
insertion of a new one.  In the update branch the value is stored first and
the delta is then computed from the stored value, as in the source. -/
def addEntry {V : Type} [Value V] (c : Cache V) (key : String) (value : V) : Cache V :=
  match mapGet c.hashmap key with
  | some p =>
    let l := setValue c.doubleList p value
    let stored : V := match deref l p with
      | some element => element.kv.value
      | none => value
    { c with
      doubleList := MoveToFront l p
      used := c.used + (Value.Len stored - Value.Len value) }
  | none =>
    { c with
      doubleList := PushFront c.doubleList c.nextPtr { key := key, value := value }
      hashmap := mapSet c.hashmap key c.nextPtr
      used := c.used + ((key.utf8ByteSize : Int) + Value.Len value)
      nextPtr := c.nextPtr + 1 }

/-- The `for` loop of `Cache.Add` (lru.go:110-112), with fuel. -/
def evictLoop {V : Type} [Value V] : Nat → Cache V → Option (Cache V)
  | 0, _ => none
  | fuel + 1, c =>
    if c.capacity ≠ 0 ∧ c.used > c.capacity then evictLoop fuel (RemoveOldest c)
    else some c

/-- Method `Cache.Add` (lru.go:86-113), with fuel for its loop. -/
def AddFuel {V : Type} [Value V] (fuel : Nat) (c : Cache V) (key : String) (value : V) :
    Option (Cache V) :=
  evictLoop fuel (addEntry c key value)

/-- Method `Cache.Add` with the fuel that suffices whenever the loop ends: one
test per node of the list and one more (`AddFuel_adequate`). -/
def Add {V : Type} [Value V] (c : Cache V) (key : String) (value : V) : Option (Cache V) :=
  AddFuel ((addEntry c key value).doubleList.length + 1) c key value

/-- Method `Cache.Len` (lru.go:115-117). -/
def Len {V : Type} (c : Cache V) : Int :=
  (c.doubleList.length : Int)

/-- Type `String` of `lru_test.go`: a string whose `Len` is its byte length. -/
instance : Value String where
  Len := fun d => (d.utf8ByteSize : Int)

/-! ## Call sequences -/

/-- A call of one of the public methods. -/
inductive Op (V : Type) where
  | get (key : String)
  | add (key : String) (value : V)
  | removeOldest

/-- One call; `none` when `Add` does not return. -/
def step {V : Type} [Value V] (c : Cache V) : Op V → Option (Cache V)
  | Op.get key => some (Get c key).1
  | Op.add key value => Add c key value
  | Op.removeOldest => some (RemoveOldest c)

/-- A sequence of calls, first call first. -/
def run {V : Type} [Value V] (c : Cache V) : List (Op V) → Option (Cache V)
  | [] => some c
  | op :: ops => (step c op).bind (fun c' => run c' ops)

/-- The exact cost `len(key) + value.Len()` of an entry. -/
def cost {V : Type} [Value V] (e : Element V) : Int :=
  (e.kv.key.utf8ByteSize : Int) + Value.Len e.kv.value

/-- The recomputed total cost of the entries present in the list. -/
def totalCost {V : Type} [Value V] (l : List (Element V)) : Int :=
  (l.map cost).sum


/-! ## Well-formed states -/

/-- The pairs (key, node address) of a list, front first. -/
def shape {V : Type} (l : List (Element V)) : List (String × Nat) :=
  l.map (fun e => (e.kv.key, e.ptr))

/-- The representation invariant: node addresses are distinct and below the
allocator, keys of the list are distinct, and the index maps exactly the keys of
the list, each to the address of its node. -/
structure WF {V : Type} (c : Cache V) : Prop where
  ptrs : ((shape c.doubleList).map (fun e => e.2)).Nodup
  keys : ((shape c.doubleList).map (fun e => e.1)).Nodup
  fresh : ∀ e ∈ shape c.doubleList, e.2 < c.nextPtr
  index : ∀ k p, mapGet c.hashmap k = some p ↔ (k, p) ∈ shape c.doubleList
  mapKeys : (c.hashmap.map (fun e => e.1)).Nodup

/-- The keys of the entries present in the recency list, front first. -/
def keysOf {V : Type} (c : Cache V) : List String :=
  c.doubleList.map (fun e => e.kv.key)

/-- States reachable from `NewCache capacity callback` by a call sequence. -/
def Reachable {V : Type} [Value V] (c : Cache V) : Prop :=
  ∃ (capacity : Int) (callback : Bool) (ops : List (Op V)),
    run (NewCache V capacity callback) ops = some c

/-- Every value passed to `Add` in the call sequence has a non-negative `Len`. -/
def nonnegOps {V : Type} [Value V] (ops : List (Op V)) : Prop :=
  ∀ key value, Op.add key value ∈ ops → 0 ≤ Value.Len value

/-- Every value stored in the cache has a non-negative `Len`. -/
def nonnegValues {V : Type} [Value V] (c : Cache V) : Prop :=
  ∀ e ∈ c.doubleList, 0 ≤ Value.Len e.kv.value

/-! ## Recency stamps -/

/-- A cache together with a logical clock: `now` numbers the calls, and `touch k`
is the number of the last call that touched key `k` (0: never touched). -/
structure Stamped (V : Type) where
  cache : Cache V
  touch : String → Nat
  now : Nat

/-- The stamped state of a new cache; the first call has number 1. -/
def NewStamped (V : Type) (capacity : Int) (callback : Bool) : Stamped V :=
  { cache := NewCache V capacity callback, touch := fun _ => 0, now := 1 }

/-- The stamps after call number `now` touched `key`. -/
def touched (touch : String → Nat) (key : String) (now : Nat) : String → Nat :=
  fun k => if k = key then now else touch k

/-- One call on a stamped state.  A `Get` that hits and every `Add` (inserting
or updating) touch their key; a missing `Get` and `RemoveOldest` touch nothing. -/
def stepT {V : Type} [Value V] (s : Stamped V) : Op V → Option (Stamped V)
  | Op.get key =>
    some { cache := (Get s.cache key).1
           touch := if (Get s.cache key).2.2 then touched s.touch key s.now else s.touch
           now := s.now + 1 }
  | Op.add key value =>
    (Add s.cache key value).map
      (fun c' => { cache := c', touch := touched s.touch key s.now, now := s.now + 1 })
  | Op.removeOldest =>
    some { cache := RemoveOldest s.cache, touch := s.touch, now := s.now + 1 }

/-- A sequence of calls on a stamped state. -/
def runT {V : Type} [Value V] (s : Stamped V) : List (Op V) → Option (Stamped V)
  | [] => some s
  | op :: ops => (stepT s op).bind (fun s' => runT s' ops)

/-- The list is in strict recency order: stamps decrease strictly from the front
to the back, and all lie before `now`. -/
def Recent {V : Type} (l : List (Element V)) (touch : String → Nat) (now : Nat) : Prop :=
  (l.map (fun e => touch e.kv.key)).Pairwise (fun a b => b < a) ∧
    ∀ e ∈ l, touch e.kv.key < now


/-- The (key, value) pairs of the entries present in the recency list, front
first. -/
def entriesOf {V : Type} (c : Cache V) : List (String × V) :=
  c.doubleList.map (fun e => (e.kv.key, e.kv.value))

/-- The calls `Add(k, v)` for the pairs of a list, in order. -/
def addAll {V : Type} (kvs : List (String × V)) : List (Op V) :=
  kvs.map (fun p => Op.add p.1 p.2)

/-! ## The read-only view (`byteView.go`)

Byte slices live in a heap of backing arrays: a slice is the nil slice or a
window into the array at some address, so that two slices can alias.  A Go
string, immutable, is the list of its bytes. -/

/-- The heap of backing arrays, by address; an allocation takes the address
`heap.length`. -/
abbrev Heap := List (List (Fin 256))

/-- A non-nil Go `[]byte`: the window of `len` bytes at offset `off` of the
backing array at address `ptr`. -/
structure Slice where
  ptr : Nat
  off : Nat
  len : Nat

/-- Struct `ByteView` of `byteView.go`: the field `b`, `none` for the nil
slice. -/
structure ByteView where
  b : Option Slice

/-- The bytes seen through a slice. -/
def contents (h : Heap) : Option Slice → List (Fin 256)
  | none => []
  | some s => ((h.getD s.ptr []).drop s.off).take s.len

/-- A slice of the heap: its array is allocated and its window is in bounds. -/
def validSlice (h : Heap) : Option Slice → Prop
  | none => True
  | some s => s.ptr < h.length ∧ s.off + s.len ≤ (h.getD s.ptr []).length

/-- Function `bytes.Clone` of the Go library: nil for nil, otherwise a slice
over a newly allocated array holding a copy of the bytes. -/
def bytesClone (h : Heap) (b : Option Slice) : Heap × Option Slice :=
  match b with
  | none => (h, none)
  | some s => (h ++ [contents h (some s)], some { ptr := h.length, off := 0, len := s.len })

/-- Method `ByteView.Len` (byteView.go:22-24). -/
def ByteView.Len (v : ByteView) : Int :=
  match v.b with
  | none => 0
  | some s => (s.len : Int)

/-- Method `ByteView.ByteSlice` (byteView.go:28-30): the heap after the call and
the slice returned. -/
def ByteView.ByteSlice (h : Heap) (v : ByteView) : Heap × Option Slice :=
  bytesClone h v.b

/-- Method `ByteView.String` (byteView.go:34-36): the conversion `string(v.b)`. -/
def ByteView.String (h : Heap) (v : ByteView) : List (Fin 256) :=
  contents h v.b

/-- A `ByteView` is a `Value`. -/
instance : Value ByteView where
  Len := ByteView.Len

/-- The assignment `s[i] = x` on a slice; `none` is the index-out-of-range
panic. -/
def sliceSet (h : Heap) (s : Slice) (i : Nat) (x : Fin 256) : Option Heap :=
  if i < s.len then some (h.set s.ptr ((h.getD s.ptr []).set (s.off + i) x)) else none

/-- A sequence of assignments `s[i] = x` on one slice. -/
def sliceSets (h : Heap) (s : Slice) : List (Nat × Fin 256) → Option Heap
  | [] => some h
  | w :: ws => (sliceSet h s w.1 w.2).bind (fun h' => sliceSets h' s ws)

/-! ## A client value type -/

/-- A client value type whose `Len()` returns the `int` it wraps, as in
`type Sized int; func (n Sized) Len() int { return int(n) }`. -/
structure Sized where
  n : Int

/-- The type `Sized` is a `Value`. -/
instance : Value Sized where
  Len := fun s => s.n


/-! ## Machine integers: the operations with `int64` wrap-around -/

/-- The largest `int64`, 2^63 - 1. -/
def maxInt64 : Int := 9223372036854775807

/-- The smallest `int64`, -2^63. -/
def minInt64 : Int := -9223372036854775808

/-- Two's complement reduction of an integer to the `int64` range. -/
def wrap64 (x : Int) : Int :=
  (x + 9223372036854775808) % 18446744073709551616 - 9223372036854775808

/-- Method `Cache.RemoveOldest` (lru.go:68-84) with machine arithmetic: the `int`
sum `len(kv.key) + kv.value.Len()` and the `int64` subtraction wrap. -/
def RemoveOldest64 {V : Type} [Value V] (c : Cache V) : Cache V :=
  match Back c.doubleList with
  | some element =>
    { c with
      doubleList := Remove c.doubleList element.ptr
      hashmap := mapDelete c.hashmap element.kv.key
      used := wrap64 (c.used -
        wrap64 ((element.kv.key.utf8ByteSize : Int) + Value.Len element.kv.value))
      events :=
        if c.callback then c.events ++ [(element.kv.key, element.kv.value)] else c.events }
  | none => c

/-- The `if`/`else` of `Cache.Add` (lru.go:88-108) with machine arithmetic. -/
def addEntry64 {V : Type} [Value V] (c : Cache V) (key : String) (value : V) : Cache V :=
  match mapGet c.hashmap key with
  | some p =>
    let l := setValue c.doubleList p value
    let stored : V := match deref l p with
      | some element => element.kv.value
      | none => value
    { c with
      doubleList := MoveToFront l p
      used := wrap64 (c.used + wrap64 (Value.Len stored - Value.Len value)) }
  | none =>
    { c with
      doubleList := PushFront c.doubleList c.nextPtr { key := key, value := value }
      hashmap := mapSet c.hashmap key c.nextPtr
      used := wrap64 (c.used + wrap64 ((key.utf8ByteSize : Int) + Value.Len value))
      nextPtr := c.nextPtr + 1 }

/-- The `for` loop of `Cache.Add` (lru.go:110-112) over `RemoveOldest64`, with
fuel. -/
def evictLoop64 {V : Type} [Value V] : Nat → Cache V → Option (Cache V)
  | 0, _ => none
  | fuel + 1, c =>
    if c.capacity ≠ 0 ∧ c.used > c.capacity then evictLoop64 fuel (RemoveOldest64 c)
    else some c

/-- Method `Cache.Add` (lru.go:86-113) with machine arithmetic and fuel. -/
def AddFuel64 {V : Type} [Value V] (fuel : Nat) (c : Cache V) (key : String) (value : V) :
    Option (Cache V) :=
  evictLoop64 fuel (addEntry64 c key value)

/-- Method `Cache.Add` with machine arithmetic and the fuel that suffices
whenever the loop ends (`AddFuel64_adequate`). -/
def Add64 {V : Type} [Value V] (c : Cache V) (key : String) (value : V) : Option (Cache V) :=
  AddFuel64 ((addEntry64 c key value).doubleList.length + 1) c key value

/-- One call, with machine arithmetic; `none` when `Add` does not return. -/
def step64 {V : Type} [Value V] (c : Cache V) : Op V → Option (Cache V)
  | Op.get key => some (Get c key).1
  | Op.add key value => Add64 c key value
  | Op.removeOldest => some (RemoveOldest64 c)

/-- A sequence of calls, with machine arithmetic. -/
def run64 {V : Type} [Value V] (c : Cache V) : List (Op V) → Option (Cache V)
  | [] => some c
  | op :: ops => (step64 c op).bind (fun c' => run64 c' ops)

/-- The size `len(key) + value.Len()` a call passes to `Add`; 0 for the other
calls. -/
def opCost {V : Type} [Value V] : Op V → Int
  | Op.add key value => (key.utf8ByteSize : Int) + Value.Len value
  | _ => 0

/-- The total of the sizes passed to `Add` in a call sequence. -/
def opsCost {V : Type} [Value V] (ops : List (Op V)) : Int :=
  (ops.map opCost).sum

/-- A state whose counters are in range: well formed, values of non-negative
`Len`, the real total of the entries at most `maxInt64`, and `used` between
that total minus `maxInt64` and `maxInt64`. -/
def Safe {V : Type} [Value V] (c : Cache V) : Prop :=
  WF c ∧ nonnegValues c ∧ totalCost c.doubleList ≤ maxInt64 ∧
    totalCost c.doubleList - maxInt64 ≤ c.used ∧ c.used ≤ maxInt64

/-- A state within the budget `A`, the total of the sizes passed to `Add` so
far: the real total of the entries is at most `A`, and `used` lies between that
total minus `A` and `A`. -/
def Budget {V : Type} [Value V] (A : Int) (c : Cache V) : Prop :=
  WF c ∧ nonnegValues c ∧ totalCost c.doubleList ≤ A ∧
    totalCost c.doubleList - A ≤ c.used ∧ c.used ≤ A

/-- The call respects the contract of `Value` and is not an `Add` on a present
key: the value added has a non-negative `Len`, and the entries then held, the
new one included, occupy at most `maxInt64` bytes. -/
def honestInsert {V : Type} [Value V] (c : Cache V) : Op V → Prop
  | Op.add key value =>
    key ∉ keysOf c ∧ 0 ≤ Value.Len value ∧
      totalCost c.doubleList + ((key.utf8ByteSize : Int) + Value.Len value) ≤ maxInt64
  | _ => True

/-- Every call of the sequence is an `honestInsert` in the state it is made in. -/
def honestInserts {V : Type} [Value V] (c : Cache V) : List (Op V) → Prop
  | [] => True
  | op :: ops => honestInsert c op ∧ ∀ c', step64 c op = some c' → honestInserts c' ops

/-! ## A long run with string values -/

/-- The string of `n` letters a, `n` bytes long. -/
def bytesString (n : Nat) : String :=
  String.mk (List.replicate n 'a')

/-- The calls `Add("k", "")`, `Add("k", v)` with `v` of 2^30 bytes, and
`RemoveOldest()`, repeated `n` times. -/
def drainCycles : Nat → List (Op String)
  | 0 => []
  | n + 1 =>
    Op.add "k" "" :: Op.add "k" (bytesString 1073741824) :: Op.removeOldest :: drainCycles n

/-- The empty cache of capacity 1 without callback, with counter `u` and
allocator `n`. -/
def drained (u : Int) (n : Nat) : Cache String :=
  { doubleList := [], hashmap := [], capacity := 1, used := u, callback := false,
    events := [], nextPtr := n }

/-- The cache of capacity 1 without callback holding the one entry `k -> v` in
the node at address `n`, with counter `u`. -/
def held (u : Int) (n : Nat) (v : String) : Cache String :=
  { doubleList := [{ ptr := n, kv := { key := "k", value := v } }], hashmap := [("k", n)],
    capacity := 1, used := u, callback := false, events := [], nextPtr := n + 1 }

/-! ## Theorems -/

theorem mapGet_mapDelete (m : List (String × Nat)) (k k' : String) :
    mapGet (mapDelete m k) k' = if k' = k then none else mapGet m k' := by
  induction m with
  | nil => simp [mapDelete, mapGet]
  | cons a m ih =>
    obtain ⟨ka, pa⟩ := a
    unfold mapDelete at ih ⊢
    by_cases h : ka = k
    · subst h
      simp only [List.filter_cons, ne_eq, not_true_eq_false, decide_False, Bool.false_eq_true,
        if_false, ih, mapGet]
      by_cases h2 : k' = ka
      · subst h2; simp
      · have : ¬ ka = k' := fun h => h2 h.symm
        simp [h2, this]
    · simp only [List.filter_cons, ne_eq, h, not_false_eq_true, decide_True, if_true, mapGet, ih]
      by_cases h2 : ka = k'
      · subst h2; simp [h]
      · simp [h2]

theorem mapGet_mapSet (m : List (String × Nat)) (k k' : String) (p : Nat) :
    mapGet (mapSet m k p) k' = if k' = k then some p else mapGet m k' := by
  unfold mapSet
  simp only [mapGet, mapGet_mapDelete]
  by_cases h : k = k'
  · subst h; simp
  · have : ¬ k' = k := fun h2 => h h2.symm
    simp [h, this]

theorem mapGet_none_iff (m : List (String × Nat)) (k : String) :
    mapGet m k = none ↔ k ∉ m.map (fun e => e.1) := by
  induction m with
  | nil => simp [mapGet]
  | cons a m ih =>
    obtain ⟨ka, pa⟩ := a
    by_cases h : ka = k
    · subst h; simp [mapGet]
    · have : ¬ k = ka := fun h2 => h h2.symm
      simp [mapGet, h, ih, this]

theorem shape_ptrs {V : Type} (l : List (Element V)) :
    (shape l).map (fun e => e.2) = l.map (fun e => e.ptr) := by
  simp [shape]

theorem shape_keys {V : Type} (l : List (Element V)) :
    (shape l).map (fun e => e.1) = l.map (fun e => e.kv.key) := by
  simp [shape]

theorem deref_some {V : Type} {l : List (Element V)} {p : Nat} {e : Element V}
    (h : deref l p = some e) :
    ∃ l₁ l₂, l = l₁ ++ e :: l₂ ∧ Remove l p = l₁ ++ l₂ ∧ e.ptr = p := by
  induction l with
  | nil => simp [deref] at h
  | cons a l ih =>
    by_cases ha : a.ptr = p
    · have : a = e := by simpa [deref, List.find?, ha] using h
      subst this
      exact ⟨[], l, rfl, by simp [Remove, List.eraseP_cons, ha], ha⟩
    · have h2 : deref l p = some e := by simpa [deref, List.find?, ha] using h
      obtain ⟨l₁, l₂, h₁, h₂, h₃⟩ := ih h2
      refine ⟨a :: l₁, l₂, by simp [h₁], ?_, h₃⟩
      unfold Remove at h₂ ⊢
      simp [List.eraseP_cons, ha, h₂]

theorem deref_none {V : Type} {l : List (Element V)} {p : Nat} :
    deref l p = none ↔ ∀ e ∈ l, e.ptr ≠ p := by
  simp [deref, List.find?_eq_none]

theorem deref_of_mem {V : Type} {l : List (Element V)} {e : Element V}
    (hn : ((shape l).map (fun e => e.2)).Nodup) (he : e ∈ l) : deref l e.ptr = some e := by
  rw [shape_ptrs] at hn
  induction l with
  | nil => simp at he
  | cons a l ih =>
    simp only [List.map_cons, List.nodup_cons, List.mem_map, not_exists, not_and] at hn
    rcases List.mem_cons.mp he with h | h
    · subst h; simp [deref, List.find?]
    · have hne : a.ptr ≠ e.ptr := fun h2 => hn.1 e h h2.symm
      have := ih hn.2 h
      simpa [deref, List.find?, hne] using this

theorem Back_eq_some {V : Type} {l : List (Element V)} {e : Element V} :
    Back l = some e ↔ ∃ l₁, l = l₁ ++ [e] := by
  unfold Back
  constructor
  · intro h
    rcases List.eq_nil_or_concat l with h0 | ⟨l₁, b, hb⟩
    · subst h0; simp at h
    · subst hb
      simp at h
      exact ⟨l₁, by simp [h]⟩
  · rintro ⟨l₁, rfl⟩; simp

theorem Back_eq_none {V : Type} {l : List (Element V)} : Back l = none ↔ l = [] := by
  simp [Back]

theorem Remove_back {V : Type} {l₁ : List (Element V)} {e : Element V}
    (hn : ((shape (l₁ ++ [e])).map (fun e => e.2)).Nodup) : Remove (l₁ ++ [e]) e.ptr = l₁ := by
  have hd : deref (l₁ ++ [e]) e.ptr = some e := deref_of_mem hn (by simp)
  obtain ⟨a, b, h₁, h₂, -⟩ := deref_some hd
  rw [h₂]
  -- the decomposition is unique since addresses are distinct
  have hb : b = [] := by
    rcases List.eq_nil_or_concat b with h0 | ⟨b₁, x, hx⟩
    · exact h0
    · subst hx
      have h3 : l₁ ++ [e] = (a ++ e :: b₁) ++ [x] := by simpa using h₁
      have h4 := List.append_inj' h3 rfl
      have hx : x = e := by simpa using h4.2.symm
      subst hx
      rw [h3, shape_ptrs] at hn
      simp [List.nodup_append] at hn
  subst hb
  have := List.append_inj' h₁ rfl
  simpa using this.1.symm


theorem MoveToFront_perm {V : Type} (l : List (Element V)) (p : Nat) :
    (MoveToFront l p).Perm l := by
  unfold MoveToFront
  cases h : deref l p with
  | none => exact List.Perm.refl _
  | some e =>
    obtain ⟨l₁, l₂, h₁, h₂, -⟩ := deref_some h
    simp only [h₂]
    rw [h₁]
    exact (List.perm_middle).symm

theorem shape_setValue {V : Type} (l : List (Element V)) (p : Nat) (v : V) :
    shape (setValue l p v) = shape l := by
  unfold shape setValue
  rw [List.map_map]
  apply List.map_congr_left
  intro e _
  by_cases h : e.ptr = p <;> simp [h]

theorem WF_NewCache (V : Type) (capacity : Int) (callback : Bool) :
    WF (NewCache V capacity callback) := by
  constructor <;> simp [NewCache, shape, mapGet]

/-- Well-formedness only depends on the shape of the list, up to reordering. -/
theorem WF_of_perm {V : Type} {c c' : Cache V} (h : WF c)
    (hl : (shape c'.doubleList).Perm (shape c.doubleList))
    (hm : c'.hashmap = c.hashmap) (hp : c'.nextPtr = c.nextPtr) : WF c' := by
  constructor
  · exact ((hl.map _).nodup_iff).mpr h.ptrs
  · exact ((hl.map _).nodup_iff).mpr h.keys
  · intro e he
    rw [hp]
    exact h.fresh e (hl.mem_iff.mp he)
  · intro k p
    rw [hm, h.index, hl.mem_iff]
  · rw [hm]; exact h.mapKeys

theorem Get_miss {V : Type} {c : Cache V} {key : String}
    (hk : mapGet c.hashmap key = none) : Get c key = (c, (none, false)) := by
  simp only [Get, hk]

theorem Get_hit {V : Type} {c : Cache V} {key : String} {p : Nat} {e : Element V}
    (hk : mapGet c.hashmap key = some p) (hd : deref c.doubleList p = some e) :
    Get c key =
      ({ c with doubleList := MoveToFront c.doubleList p }, (some e.kv.value, true)) := by
  simp only [Get, hk, hd]

theorem Get_dangling {V : Type} {c : Cache V} {key : String} {p : Nat}
    (hk : mapGet c.hashmap key = some p) (hd : deref c.doubleList p = none) :
    Get c key = (c, (none, true)) := by
  simp only [Get, hk, hd]

theorem WF_Get {V : Type} {c : Cache V} (h : WF c) (key : String) : WF (Get c key).1 := by
  cases hk : mapGet c.hashmap key with
  | none => rw [Get_miss hk]; exact h
  | some p =>
    cases hd : deref c.doubleList p with
    | none => rw [Get_dangling hk hd]; exact h
    | some e =>
      rw [Get_hit hk hd]
      exact WF_of_perm h ((MoveToFront_perm _ _).map _) rfl rfl

theorem RemoveOldest_eq {V : Type} [Value V] {c : Cache V} {l₁ : List (Element V)}
    {e : Element V} (h : WF c) (hl : c.doubleList = l₁ ++ [e]) :
    RemoveOldest c =
      { c with
        doubleList := l₁
        hashmap := mapDelete c.hashmap e.kv.key
        used := c.used - cost e
        events := if c.callback then c.events ++ [(e.kv.key, e.kv.value)] else c.events } := by
  have hb : Back c.doubleList = some e := Back_eq_some.mpr ⟨l₁, hl⟩
  have hr : Remove c.doubleList e.ptr = l₁ := by
    rw [hl]; apply Remove_back; rw [← hl]; exact h.ptrs
  unfold RemoveOldest
  simp only [hb, hr, cost]

theorem RemoveOldest_nil {V : Type} [Value V] {c : Cache V} (hl : c.doubleList = []) :
    RemoveOldest c = c := by
  unfold RemoveOldest
  simp [Back, hl]

theorem mapDelete_keys_nodup {m : List (String × Nat)} (k : String)
    (h : (m.map (fun e => e.1)).Nodup) : ((mapDelete m k).map (fun e => e.1)).Nodup := by
  unfold mapDelete
  exact h.sublist ((List.filter_sublist m).map _)

theorem WF_RemoveOldest {V : Type} [Value V] {c : Cache V} (h : WF c) : WF (RemoveOldest c) := by
  rcases List.eq_nil_or_concat c.doubleList with h0 | ⟨l₁, e, hl⟩
  · rw [RemoveOldest_nil h0]; exact h
  · have hl2 : c.doubleList = l₁ ++ [e] := by simpa using hl
    rw [RemoveOldest_eq h hl2]
    have hp := h.ptrs
    have hk := h.keys
    have hf := h.fresh
    have hi := h.index
    rw [hl2] at hp hk hf hi
    simp only [shape, List.map_append, List.map_cons, List.map_nil, List.map_map] at hp hk
    rw [List.nodup_append] at hp hk
    constructor
    · simpa [shape] using hp.1
    · simpa [shape] using hk.1
    · intro x hx
      exact hf x (by simp only [shape, List.map_append, List.mem_append] at hx ⊢; exact Or.inl hx)
    · intro k p
      show mapGet (mapDelete c.hashmap e.kv.key) k = some p ↔ (k, p) ∈ shape l₁
      rw [mapGet_mapDelete]
      by_cases hke : k = e.kv.key
      · subst hke
        simp only [if_true]
        constructor
        · intro hh; cases hh
        · intro hm
          exfalso
          have h1 : e.kv.key ∈ List.map ((fun e => e.1) ∘ fun e => (e.kv.key, e.ptr)) l₁ := by
            simp only [shape, List.mem_map] at hm
            obtain ⟨x, hx, hxe⟩ := hm
            simp only [List.mem_map, Function.comp_apply]
            exact ⟨x, hx, by simpa using congrArg Prod.fst hxe⟩
          exact hk.2.2 h1 (by simp)
      · simp only [hke, if_false]
        rw [hi]
        simp only [shape, List.map_append, List.mem_append, List.map_cons, List.map_nil,
          List.mem_singleton, Prod.mk.injEq]
        constructor
        · rintro (hh | ⟨hh, -⟩)
          · exact hh
          · exact absurd hh hke
        · intro hh; exact Or.inl hh
    · exact mapDelete_keys_nodup _ h.mapKeys

theorem Remove_middle {V : Type} {l₁ l₂ : List (Element V)} {e : Element V}
    (hn : ((shape (l₁ ++ e :: l₂)).map (fun e => e.2)).Nodup) :
    Remove (l₁ ++ e :: l₂) e.ptr = l₁ ++ l₂ := by
  rw [shape_ptrs] at hn
  induction l₁ with
  | nil => simp [Remove]
  | cons a l₁ ih =>
    simp only [List.cons_append, List.map_cons, List.nodup_cons, List.mem_map, not_exists,
      not_and] at hn
    have hne : a.ptr ≠ e.ptr := fun h2 => hn.1 e (by simp) h2.symm
    have := ih hn.2
    unfold Remove at this ⊢
    simp [List.eraseP_cons, hne, this]

theorem MoveToFront_middle {V : Type} {l₁ l₂ : List (Element V)} {e : Element V}
    (hn : ((shape (l₁ ++ e :: l₂)).map (fun e => e.2)).Nodup) :
    MoveToFront (l₁ ++ e :: l₂) e.ptr = e :: (l₁ ++ l₂) := by
  unfold MoveToFront
  rw [deref_of_mem hn (by simp), Remove_middle hn]

theorem setValue_of_forall_ne {V : Type} {l : List (Element V)} {p : Nat} (v : V)
    (h : ∀ a ∈ l, a.ptr ≠ p) : setValue l p v = l := by
  unfold setValue
  conv_rhs => rw [← List.map_id l]
  apply List.map_congr_left
  intro a ha
  simp [h a ha]

theorem setValue_middle {V : Type} {l₁ l₂ : List (Element V)} {e : Element V} (v : V)
    (hn : ((shape (l₁ ++ e :: l₂)).map (fun e => e.2)).Nodup) :
    setValue (l₁ ++ e :: l₂) e.ptr v =
      l₁ ++ { e with kv := { e.kv with value := v } } :: l₂ := by
  rw [shape_ptrs] at hn
  simp only [List.map_append, List.map_cons, List.nodup_append, List.nodup_cons, List.mem_map,
    not_exists, not_and, List.mem_cons, forall_eq_or_imp] at hn
  obtain ⟨-, ⟨h2, -⟩, h3⟩ := hn
  have e1 : setValue l₁ e.ptr v = l₁ := by
    apply setValue_of_forall_ne
    intro a ha hh
    exact h3 (List.mem_map.mpr ⟨a, ha, rfl⟩) (by simp [hh])
  have e2 : setValue l₂ e.ptr v = l₂ := setValue_of_forall_ne v (fun a ha hh => h2 a ha hh)
  unfold setValue at e1 e2 ⊢
  simp only [List.map_append, List.map_cons, if_true, e1, e2]

theorem deref_setValue_value {V : Type} {l : List (Element V)} {p : Nat} {v : V}
    {e : Element V} (h : deref (setValue l p v) p = some e) : e.kv.value = v := by
  obtain ⟨l₁, l₂, h₁, -, h₃⟩ := deref_some h
  have hm : e ∈ setValue l p v := by rw [h₁]; simp
  unfold setValue at hm
  obtain ⟨a, -, ha⟩ := List.mem_map.mp hm
  by_cases hp : a.ptr = p
  · simp only [hp, if_true] at ha
    rw [← ha]
  · simp only [hp, if_false] at ha
    subst ha
    exact absurd h₃ hp

theorem addEntry_hit {V : Type} [Value V] {c : Cache V} {key : String} {p : Nat} (value : V)
    (hk : mapGet c.hashmap key = some p) :
    addEntry c key value =
      { c with doubleList := MoveToFront (setValue c.doubleList p value) p } := by
  have hs : (match deref (setValue c.doubleList p value) p with
      | some element => element.kv.value
      | none => value) = value := by
    cases hd : deref (setValue c.doubleList p value) p with
    | none => rfl
    | some e => exact deref_setValue_value hd
  simp only [addEntry, hk, hs, sub_self, add_zero]

theorem addEntry_new {V : Type} [Value V] {c : Cache V} {key : String} (value : V)
    (hk : mapGet c.hashmap key = none) :
    addEntry c key value =
      { c with
        doubleList := PushFront c.doubleList c.nextPtr { key := key, value := value }
        hashmap := mapSet c.hashmap key c.nextPtr
        used := c.used + ((key.utf8ByteSize : Int) + Value.Len value)
        nextPtr := c.nextPtr + 1 } := by
  simp only [addEntry, hk]

theorem WF_addEntry {V : Type} [Value V] {c : Cache V} (h : WF c) (key : String) (value : V) :
    WF (addEntry c key value) := by
  cases hk : mapGet c.hashmap key with
  | some p =>
    rw [addEntry_hit value hk]
    refine WF_of_perm h ?_ rfl rfl
    have := (MoveToFront_perm (setValue c.doubleList p value) p).map
      (fun e : Element V => (e.kv.key, e.ptr))
    have h2 := shape_setValue c.doubleList p value
    unfold shape at h2 ⊢
    rw [← h2]
    exact this
  | none =>
    rw [addEntry_new value hk]
    have hnk : ∀ q, (key, q) ∉ shape c.doubleList := by
      intro q hq
      have := (h.index key q).mpr hq
      rw [hk] at this; cases this
    constructor
    · show ((shape (PushFront c.doubleList c.nextPtr _)).map (fun e => e.2)).Nodup
      simp only [PushFront, shape, List.map_cons, List.nodup_cons]
      refine ⟨?_, h.ptrs⟩
      intro hm
      obtain ⟨x, hx, hxe⟩ := List.mem_map.mp hm
      have := h.fresh x hx
      omega
    · show ((shape (PushFront c.doubleList c.nextPtr _)).map (fun e => e.1)).Nodup
      simp only [PushFront, shape, List.map_cons, List.nodup_cons]
      refine ⟨?_, h.keys⟩
      intro hm
      obtain ⟨x, hx, hxe⟩ := List.mem_map.mp hm
      exact hnk x.2 (by rw [← hxe]; exact hx)
    · intro x hx
      show x.2 < c.nextPtr + 1
      simp only [PushFront, shape, List.map_cons, List.mem_cons] at hx
      rcases hx with hx | hx
      · subst hx; simp
      · have := h.fresh x hx
        omega
    · intro k p
      show mapGet (mapSet c.hashmap key c.nextPtr) k = some p ↔
        (k, p) ∈ shape (PushFront c.doubleList c.nextPtr _)
      rw [mapGet_mapSet]
      simp only [PushFront, shape, List.map_cons, List.mem_cons, Prod.mk.injEq]
      by_cases hke : k = key
      · subst hke
        simp only [if_true, Option.some.injEq, true_and]
        constructor
        · intro hh; exact Or.inl hh.symm
        · rintro (hh | hh)
          · exact hh.symm
          · exact absurd hh (hnk p)
      · simp only [hke, if_false, false_and, false_or]
        exact h.index k p
    · show ((mapSet c.hashmap key c.nextPtr).map (fun e => e.1)).Nodup
      simp only [mapSet, List.map_cons, List.nodup_cons]
      refine ⟨?_, mapDelete_keys_nodup _ h.mapKeys⟩
      intro hm
      have := (mapGet_none_iff (mapDelete c.hashmap key) key).mp (by rw [mapGet_mapDelete]; simp)
      exact this hm

theorem evictLoop_zero {V : Type} [Value V] (c : Cache V) : evictLoop 0 c = none := rfl

theorem evictLoop_succ {V : Type} [Value V] (fuel : Nat) (c : Cache V) :
    evictLoop (fuel + 1) c =
      if c.capacity ≠ 0 ∧ c.used > c.capacity then evictLoop fuel (RemoveOldest c)
      else some c := rfl

/-- What a terminating run of the eviction loop does to a well-formed state: it
cuts a suffix `removed` off the list, tail first, and stops on a state that
fails the loop test. -/
theorem evictLoop_spec {V : Type} [Value V] (fuel : Nat) (c c' : Cache V) (h : WF c)
    (hr : evictLoop fuel c = some c') :
    ∃ removed : List (Element V),
      c.doubleList = c'.doubleList ++ removed ∧
      c'.events = (if c.callback then
          c.events ++ removed.reverse.map (fun e => (e.kv.key, e.kv.value))
        else c.events) ∧
      c'.used = c.used - totalCost removed ∧
      c'.capacity = c.capacity ∧ c'.callback = c.callback ∧ c'.nextPtr = c.nextPtr ∧
      ¬ (c'.capacity ≠ 0 ∧ c'.used > c'.capacity) ∧ WF c' := by
  induction fuel generalizing c with
  | zero => simp [evictLoop_zero] at hr
  | succ n ih =>
    rw [evictLoop_succ] at hr
    by_cases hc : c.capacity ≠ 0 ∧ c.used > c.capacity
    · rw [if_pos hc] at hr
      rcases List.eq_nil_or_concat c.doubleList with h0 | ⟨l₁, e, hl⟩
      · rw [RemoveOldest_nil h0] at hr
        exact ih c h hr
      · have hl2 : c.doubleList = l₁ ++ [e] := by simpa using hl
        have hw := WF_RemoveOldest h
        rw [RemoveOldest_eq h hl2] at hr hw
        obtain ⟨removed, h1, h2, h3, h4, h5, h6, h7, h8⟩ := ih _ hw hr
        simp only at h1 h2 h3 h4 h5 h6
        refine ⟨removed ++ [e], ?_, ?_, ?_, h4, h5, h6, h7, h8⟩
        · rw [hl2, h1, List.append_assoc]
        · rw [h2]
          cases c.callback <;> simp
        · rw [h3]
          simp only [totalCost, List.map_append, List.sum_append, List.map_cons, List.map_nil,
            List.sum_cons, List.sum_nil]
          ring
    · rw [if_neg hc] at hr
      cases hr
      exact ⟨[], by simp, by simp, by simp [totalCost], rfl, rfl, rfl, hc, h⟩

theorem WF_evictLoop {V : Type} [Value V] {fuel : Nat} {c c' : Cache V} (h : WF c)
    (hr : evictLoop fuel c = some c') : WF c' := by
  obtain ⟨_, _, _, _, _, _, _, _, hw⟩ := evictLoop_spec fuel c c' h hr
  exact hw

theorem length_RemoveOldest {V : Type} [Value V] (c : Cache V) :
    (RemoveOldest c).doubleList.length = c.doubleList.length - 1 := by
  unfold RemoveOldest
  cases hb : Back c.doubleList with
  | none => simp [Back_eq_none.mp hb]
  | some e =>
    obtain ⟨l₁, hl⟩ := Back_eq_some.mp hb
    simp only [Remove]
    rw [List.length_eraseP_of_mem (a := e) (by rw [hl]; simp) (by simp)]

/-- On an empty list a loop whose test succeeds never stops. -/
theorem evictLoop_stuck {V : Type} [Value V] (fuel : Nat) (c : Cache V)
    (hl : c.doubleList = []) (hc : c.capacity ≠ 0 ∧ c.used > c.capacity) :
    evictLoop fuel c = none := by
  induction fuel with
  | zero => rfl
  | succ n ih => rw [evictLoop_succ, if_pos hc, RemoveOldest_nil hl]; exact ih

/-- Fuel adequacy: a loop that stops for some fuel stops, with the same result,
for one unit of fuel per node of the list and one more. -/
theorem evictLoop_adequate {V : Type} [Value V] (fuel : Nat) (c c' : Cache V)
    (hr : evictLoop fuel c = some c') (m : Nat) (hm : c.doubleList.length + 1 ≤ m) :
    evictLoop m c = some c' := by
  induction fuel generalizing c m with
  | zero => simp [evictLoop_zero] at hr
  | succ n ih =>
    obtain ⟨m, rfl⟩ : ∃ m', m = m' + 1 := ⟨m - 1, by omega⟩
    rw [evictLoop_succ] at hr ⊢
    by_cases hc : c.capacity ≠ 0 ∧ c.used > c.capacity
    · rw [if_pos hc] at hr ⊢
      by_cases h0 : c.doubleList = []
      · rw [RemoveOldest_nil h0] at hr
        rw [evictLoop_stuck n c h0 hc] at hr
        cases hr
      · apply ih _ hr
        rw [length_RemoveOldest]
        have : 0 < c.doubleList.length := List.length_pos.mpr h0
        omega
    · rw [if_neg hc] at hr ⊢
      exact hr

/-- Fuel adequacy of `Add`: whenever `AddFuel` returns for some fuel, `Add`
returns the same state. -/
theorem AddFuel_adequate {V : Type} [Value V] (fuel : Nat) (c c' : Cache V) (key : String)
    (value : V) (hr : AddFuel fuel c key value = some c') : Add c key value = some c' :=
  evictLoop_adequate fuel _ c' hr _ (Nat.le_refl _)

theorem WF_step {V : Type} [Value V] {c c' : Cache V} (h : WF c) (op : Op V)
    (hs : step c op = some c') : WF c' := by
  cases op with
  | get key => simp only [step, Option.some.injEq] at hs; subst hs; exact WF_Get h key
  | add key value => exact WF_evictLoop (WF_addEntry h key value) hs
  | removeOldest =>
    simp only [step, Option.some.injEq] at hs; subst hs; exact WF_RemoveOldest h

theorem run_cons {V : Type} [Value V] (c : Cache V) (op : Op V) (ops : List (Op V)) :
    run c (op :: ops) = (step c op).bind (fun c' => run c' ops) := rfl

theorem run_append {V : Type} [Value V] (c : Cache V) (ops₁ ops₂ : List (Op V)) :
    run c (ops₁ ++ ops₂) = (run c ops₁).bind (fun c' => run c' ops₂) := by
  induction ops₁ generalizing c with
  | nil => simp [run]
  | cons op ops ih =>
    simp only [List.cons_append, run_cons]
    cases hs : step c op with
    | none => simp
    | some c₁ => simp [ih]

/-- Induction along a call sequence. -/
theorem run_induction {V : Type} [Value V] (P : Cache V → Prop)
    (hstep : ∀ c op c', P c → step c op = some c' → P c')
    {c c' : Cache V} {ops : List (Op V)} (h0 : P c) (hr : run c ops = some c') : P c' := by
  induction ops generalizing c with
  | nil => simp only [run, Option.some.injEq] at hr; subst hr; exact h0
  | cons op ops ih =>
    rw [run_cons] at hr
    cases hs : step c op with
    | none => simp [hs] at hr
    | some c₁ =>
      simp only [hs, Option.some_bind] at hr
      exact ih (hstep c op c₁ h0 hs) hr

theorem WF_run {V : Type} [Value V] {c c' : Cache V} {ops : List (Op V)} (h : WF c)
    (hr : run c ops = some c') : WF c' :=
  run_induction WF (fun _ op _ hc hs => WF_step hc op hs) h hr

theorem WF_of_Reachable {V : Type} [Value V] {c : Cache V} (h : Reachable c) : WF c := by
  obtain ⟨capacity, callback, ops, hr⟩ := h
  exact WF_run (WF_NewCache V capacity callback) hr

theorem Reachable_step {V : Type} [Value V] {c c' : Cache V} (h : Reachable c) (op : Op V)
    (hs : step c op = some c') : Reachable c' := by
  obtain ⟨capacity, callback, ops, hr⟩ := h
  refine ⟨capacity, callback, ops ++ [op], ?_⟩
  rw [run_append, hr]
  simp [run, hs]

theorem index_split {V : Type} {c : Cache V} (h : WF c) {key : String} {p : Nat}
    (hk : mapGet c.hashmap key = some p) :
    ∃ l₁ e l₂, c.doubleList = l₁ ++ e :: l₂ ∧ e.kv.key = key ∧ e.ptr = p := by
  have hm := (h.index key p).mp hk
  obtain ⟨e, he, hee⟩ := List.mem_map.mp hm
  obtain ⟨l₁, l₂, hl⟩ := List.append_of_mem he
  simp only [Prod.mk.injEq] at hee
  exact ⟨l₁, e, l₂, hl, hee.1, hee.2⟩

theorem index_of_mem {V : Type} {c : Cache V} (h : WF c) {e : Element V}
    (he : e ∈ c.doubleList) : mapGet c.hashmap e.kv.key = some e.ptr :=
  (h.index _ _).mpr (List.mem_map.mpr ⟨e, he, rfl⟩)

theorem index_none_iff {V : Type} {c : Cache V} (h : WF c) (key : String) :
    mapGet c.hashmap key = none ↔ key ∉ keysOf c := by
  constructor
  · intro hk hm
    obtain ⟨e, he, hee⟩ := List.mem_map.mp hm
    have := index_of_mem h he
    rw [hee, hk] at this; cases this
  · intro hm
    cases hk : mapGet c.hashmap key with
    | none => rfl
    | some p =>
      obtain ⟨l₁, e, l₂, hl, he, -⟩ := index_split h hk
      exact absurd (List.mem_map.mpr ⟨e, by rw [hl]; simp, he⟩) hm

/-- The update branch of `Add` on a well-formed state: the node of the key goes
to the front with the new value; the counter `used` is left as it was. -/
theorem addEntry_update_eq {V : Type} [Value V] {c : Cache V} (h : WF c)
    {l₁ l₂ : List (Element V)} {e : Element V} (hl : c.doubleList = l₁ ++ e :: l₂) (value : V) :
    addEntry c e.kv.key value =
      { c with
        doubleList := { e with kv := { e.kv with value := value } } :: (l₁ ++ l₂) } := by
  have hk : mapGet c.hashmap e.kv.key = some e.ptr := index_of_mem h (by rw [hl]; simp)
  have hp := h.ptrs
  rw [hl] at hp
  rw [addEntry_hit value hk, hl, setValue_middle value hp]
  have hp2 : ((shape (l₁ ++ ({ e with kv := { e.kv with value := value } } : Element V) :: l₂)).map
      (fun e => e.2)).Nodup := by
    have : shape (l₁ ++ ({ e with kv := { e.kv with value := value } } : Element V) :: l₂) =
        shape (l₁ ++ e :: l₂) := by simp [shape]
    rw [this]; exact hp
  have := MoveToFront_middle hp2
  simp only at this
  rw [this]

/-- After the `if`/`else` of `Add` the node of the key is at the front and holds
the value just passed. -/
theorem addEntry_front {V : Type} [Value V] {c : Cache V} (h : WF c) (key : String)
    (value : V) :
    ∃ e rest, (addEntry c key value).doubleList = e :: rest ∧ e.kv.key = key ∧
      e.kv.value = value := by
  cases hk : mapGet c.hashmap key with
  | some p =>
    obtain ⟨l₁, e, l₂, hl, he, -⟩ := index_split h hk
    subst he
    rw [addEntry_update_eq h hl value]
    exact ⟨_, _, rfl, rfl, rfl⟩
  | none =>
    rw [addEntry_new value hk]
    exact ⟨_, _, rfl, rfl, rfl⟩

/-- A hit of `Get` on a well-formed state, by the position of the node. -/
theorem Get_hit_eq {V : Type} {c : Cache V} (h : WF c) {l₁ l₂ : List (Element V)}
    {e : Element V} (hl : c.doubleList = l₁ ++ e :: l₂) :
    Get c e.kv.key = ({ c with doubleList := e :: (l₁ ++ l₂) }, (some e.kv.value, true)) := by
  have hk : mapGet c.hashmap e.kv.key = some e.ptr := index_of_mem h (by rw [hl]; simp)
  have hp := h.ptrs
  have hd : deref c.doubleList e.ptr = some e := deref_of_mem hp (by rw [hl]; simp)
  rw [hl] at hp
  rw [Get_hit hk hd, hl, MoveToFront_middle hp]

/-- When `Add` returns a non-empty cache, `Get` of the key just added hits and
returns the value just added. -/
theorem Get_after_Add {V : Type} [Value V] {c c' : Cache V} (h : WF c) {fuel : Nat}
    {key : String} {value : V} (hr : AddFuel fuel c key value = some c')
    (hne : c'.doubleList ≠ []) : (Get c' key).2 = (some value, true) := by
  obtain ⟨e, rest, hl, hk, hv⟩ := addEntry_front h key value
  obtain ⟨removed, h1, -, -, -, -, -, -, hw⟩ :=
    evictLoop_spec fuel _ c' (WF_addEntry h key value) hr
  rw [hl] at h1
  cases hc : c'.doubleList with
  | nil => exact absurd hc hne
  | cons a l =>
    rw [hc] at h1
    simp only [List.cons_append, List.cons.injEq] at h1
    have ha : a = e := h1.1.symm
    subst ha
    have := @Get_hit_eq V c' hw [] l a (by simpa using hc)
    rw [hk, hv] at this
    rw [this]

theorem capacity_Get {V : Type} (c : Cache V) (key : String) :
    (Get c key).1.capacity = c.capacity := by
  cases hk : mapGet c.hashmap key with
  | none => rw [Get_miss hk]
  | some p =>
    cases hd : deref c.doubleList p with
    | none => rw [Get_dangling hk hd]
    | some e => rw [Get_hit hk hd]

theorem capacity_RemoveOldest {V : Type} [Value V] (c : Cache V) :
    (RemoveOldest c).capacity = c.capacity := by
  unfold RemoveOldest
  cases hb : Back c.doubleList <;> simp only [hb]

theorem capacity_addEntry {V : Type} [Value V] (c : Cache V) (key : String) (value : V) :
    (addEntry c key value).capacity = c.capacity := by
  cases hk : mapGet c.hashmap key with
  | none => rw [addEntry_new value hk]
  | some p => rw [addEntry_hit value hk]

/-- A loop whose test fails at once returns the state it was given. -/
theorem evictLoop_of_not {V : Type} [Value V] (fuel : Nat) (c : Cache V)
    (hc : ¬ (c.capacity ≠ 0 ∧ c.used > c.capacity)) : evictLoop (fuel + 1) c = some c := by
  rw [evictLoop_succ, if_neg hc]

theorem Add_of_fits {V : Type} [Value V] (c : Cache V) (key : String) (value : V)
    (hc : c.capacity = 0 ∨ (addEntry c key value).used ≤ c.capacity) :
    Add c key value = some (addEntry c key value) := by
  unfold Add AddFuel
  apply evictLoop_of_not
  rw [capacity_addEntry]
  rintro ⟨h1, h2⟩
  rcases hc with hc | hc
  · exact h1 hc
  · omega

/-- The loop returns only on a state that fails its test, and never changes the
capacity. -/
theorem evictLoop_exit {V : Type} [Value V] (fuel : Nat) (c c' : Cache V)
    (hr : evictLoop fuel c = some c') :
    ¬ (c'.capacity ≠ 0 ∧ c'.used > c'.capacity) ∧ c'.capacity = c.capacity := by
  induction fuel generalizing c with
  | zero => simp [evictLoop_zero] at hr
  | succ n ih =>
    rw [evictLoop_succ] at hr
    by_cases hc : c.capacity ≠ 0 ∧ c.used > c.capacity
    · rw [if_pos hc] at hr
      have := ih _ hr
      rw [capacity_RemoveOldest] at this
      exact this
    · rw [if_neg hc] at hr
      cases hr; exact ⟨hc, rfl⟩

theorem capacity_step {V : Type} [Value V] {c c' : Cache V} (op : Op V)
    (hs : step c op = some c') : c'.capacity = c.capacity := by
  cases op with
  | get key => simp only [step, Option.some.injEq] at hs; subst hs; exact capacity_Get c key
  | removeOldest =>
    simp only [step, Option.some.injEq] at hs; subst hs; exact capacity_RemoveOldest c
  | add key value =>
    rw [(evictLoop_exit _ _ _ hs).2, capacity_addEntry]

/-- With capacity 0 every call sequence runs to its end. -/
theorem run_unbounded {V : Type} [Value V] (c : Cache V) (h0 : c.capacity = 0)
    (ops : List (Op V)) : ∃ c', run c ops = some c' ∧ c'.capacity = 0 := by
  induction ops generalizing c with
  | nil => exact ⟨c, rfl, h0⟩
  | cons op ops ih =>
    have hs : ∃ c₁, step c op = some c₁ := by
      cases op with
      | get key => exact ⟨_, rfl⟩
      | removeOldest => exact ⟨_, rfl⟩
      | add key value => exact ⟨_, Add_of_fits c key value (Or.inl h0)⟩
    obtain ⟨c₁, hs⟩ := hs
    obtain ⟨c', hr, hc⟩ := ih c₁ (by rw [capacity_step op hs, h0])
    exact ⟨c', by rw [run_cons, hs]; exact hr, hc⟩

/-- C1, at the failing input: on an unbounded cache, after `Add("k","x")` and
`Add("k","yyyyy")` the only entry is `k` with cost 1 + 5 = 6, while the counter
`used` is still 2: `used` is not the recomputed sum of the entry costs after an
`Add` on a key that is already present. -/
theorem C1_used_differs_from_recomputed_sum :
    (run (NewCache String 0 false) [Op.add "k" "x", Op.add "k" "yyyyy"]).map
      (fun c => (keysOf c, totalCost c.doubleList, c.used)) = some (["k"], 6, 2) := by
  decide

/-- C2, at the failing input: with `k` present holding "x" (`used` = 2), the call
`Add("k","yyyyy")` stores "yyyyy" but leaves `used` at 2; the claim asks for a
change by 5 - 1 = 4, that is `used` = 6. -/
theorem C2_update_leaves_used_unchanged :
    (run (NewCache String 0 false) [Op.add "k" "x"]).map
      (fun c => (c.doubleList.map (fun e => (e.kv.key, e.kv.value)), c.used))
        = some ([("k", "x")], 2) ∧
    (run (NewCache String 0 false) [Op.add "k" "x", Op.add "k" "yyyyy"]).map
      (fun c => (c.doubleList.map (fun e => (e.kv.key, e.kv.value)), c.used))
        = some ([("k", "yyyyy")], 2) := by
  decide

/-- C3, counterexample: with capacity 3, `Add("k","12345")` (cost 6) returns with
the entry already evicted, so the `Get("k")` that follows reports a miss. -/
theorem C3_counterexample :
    (Add (NewCache String 3 false) "k" "12345").map (fun c => (Len c, (Get c "k").2))
      = some (0, (none, false)) := by
  decide

/-- C3, amended: in every state reachable from `NewCache`, when `Add(k, v)`
returns and leaves the cache non-empty, the `Get(k)` that follows returns
`(v, true)`; and `Add` does return such a state when the capacity is 0 or the
counter `used` after the insertion or update does not exceed the capacity. -/
theorem C3_add_then_get_when_kept {V : Type} [Value V] (c : Cache V) (h : Reachable c)
    (key : String) (value : V) :
    (∀ c', Add c key value = some c' → c'.doubleList ≠ [] →
      (Get c' key).2 = (some value, true)) ∧
    (c.capacity = 0 ∨ (addEntry c key value).used ≤ c.capacity →
      ∃ c', Add c key value = some c' ∧ c'.doubleList ≠ [] ∧
        (Get c' key).2 = (some value, true)) := by
  have hw := WF_of_Reachable h
  refine ⟨fun c' hr hne => Get_after_Add hw hr hne, fun hc => ?_⟩
  have hr := Add_of_fits c key value hc
  obtain ⟨e, rest, hl, -, -⟩ := addEntry_front hw key value
  have hne : (addEntry c key value).doubleList ≠ [] := by rw [hl]; simp
  exact ⟨_, hr, hne, Get_after_Add hw hr hne⟩

/-- Witness of `C3_add_then_get_when_kept`: capacity 10, `Add("k1","1234")` on the
new cache, then `Get("k1")`. -/
theorem C3_add_then_get_when_kept_witness :
    Reachable (NewCache String 10 false) ∧
    ((addEntry (NewCache String 10 false) "k1" "1234").used ≤ (10 : Int)) ∧
    ∃ c', Add (NewCache String 10 false) "k1" "1234" = some c' ∧ c'.doubleList ≠ [] ∧
      (Get c' "k1").2 = (some "1234", true) :=
  ⟨⟨10, false, [], rfl⟩, by decide,
    (C3_add_then_get_when_kept (NewCache String 10 false) ⟨10, false, [], rfl⟩ "k1" "1234").2
      (Or.inr (by decide))⟩

/-- C4: on a cache created with capacity 0, every sequence of `Get`, `Add` and
`RemoveOldest` calls runs to its end, and in the state it reaches `Add(k, v)`
returns and the `Get(k)` that follows returns `(v, true)`. -/
theorem C4_unbounded_add_then_get {V : Type} [Value V] (callback : Bool) (ops : List (Op V))
    (key : String) (value : V) :
    ∃ c c', run (NewCache V 0 callback) ops = some c ∧ Add c key value = some c' ∧
      (Get c' key).2 = (some value, true) := by
  obtain ⟨c, hr, hc⟩ := run_unbounded (NewCache V 0 callback) rfl ops
  have hw : WF c := WF_run (WF_NewCache V 0 callback) hr
  have ha := Add_of_fits c key value (Or.inl hc)
  obtain ⟨e, rest, hl, -, -⟩ := addEntry_front hw key value
  exact ⟨c, _, hr, ha, Get_after_Add hw ha (by rw [hl]; simp)⟩

/-- Witness of `C4_unbounded_add_then_get`, the run of `TestGet`:
`NewCache(0, nil)`, `Add("key1", "1111")`, `Get("key1")` gives `("1111", true)`. -/
theorem C4_unbounded_add_then_get_witness :
    (Add (NewCache String 0 false) "key1" "1111").map (fun c => (Get c "key1").2)
      = some (some "1111", true) := by
  obtain ⟨c, c', h1, h2, h3⟩ := C4_unbounded_add_then_get (V := String) false [] "key1" "1111"
  simp only [run, Option.some.injEq] at h1
  subst h1
  rw [h2, Option.map_some', h3]

theorem keysOf_Get {V : Type} (c : Cache V) (key : String) :
    (keysOf (Get c key).1).Perm (keysOf c) := by
  cases hk : mapGet c.hashmap key with
  | none => rw [Get_miss hk]
  | some p =>
    cases hd : deref c.doubleList p with
    | none => rw [Get_dangling hk hd]
    | some e =>
      rw [Get_hit hk hd]
      exact (MoveToFront_perm c.doubleList p).map _

theorem keysOf_RemoveOldest {V : Type} [Value V] (c : Cache V) :
    (keysOf (RemoveOldest c)).Sublist (keysOf c) := by
  unfold RemoveOldest
  cases hb : Back c.doubleList with
  | none => exact List.Sublist.refl _
  | some e => exact (List.eraseP_sublist c.doubleList).map _

theorem keysOf_addEntry {V : Type} [Value V] (c : Cache V) (key : String) (value : V)
    (k : String) (hk : k ∈ keysOf (addEntry c key value)) : k = key ∨ k ∈ keysOf c := by
  cases hg : mapGet c.hashmap key with
  | some p =>
    rw [addEntry_hit value hg] at hk
    right
    have h1 := ((MoveToFront_perm (setValue c.doubleList p value) p).map
      (fun e : Element V => e.kv.key)).mem_iff.mp hk
    have h2 := congrArg (List.map (fun e : String × Nat => e.1)) (shape_setValue c.doubleList p value)
    rw [shape_keys, shape_keys] at h2
    rw [h2] at h1
    exact h1
  | none =>
    rw [addEntry_new value hg] at hk
    simp only [keysOf, PushFront, List.map_cons, List.mem_cons] at hk
    exact hk

theorem keysOf_evictLoop {V : Type} [Value V] (fuel : Nat) (c c' : Cache V)
    (hr : evictLoop fuel c = some c') (k : String) (hk : k ∈ keysOf c') : k ∈ keysOf c := by
  induction fuel generalizing c with
  | zero => simp [evictLoop_zero] at hr
  | succ n ih =>
    rw [evictLoop_succ] at hr
    by_cases hc : c.capacity ≠ 0 ∧ c.used > c.capacity
    · rw [if_pos hc] at hr
      exact (keysOf_RemoveOldest c).subset (ih _ hr)
    · rw [if_neg hc] at hr
      cases hr; exact hk

/-- A key present after a call was present before it, or is the key the call
added. -/
theorem keysOf_step {V : Type} [Value V] {c c' : Cache V} (op : Op V)
    (hs : step c op = some c') (k : String) (hk : k ∈ keysOf c') :
    k ∈ keysOf c ∨ ∃ v, op = Op.add k v := by
  cases op with
  | get key =>
    simp only [step, Option.some.injEq] at hs; subst hs
    exact Or.inl ((keysOf_Get c key).mem_iff.mp hk)
  | removeOldest =>
    simp only [step, Option.some.injEq] at hs; subst hs
    exact Or.inl ((keysOf_RemoveOldest c).subset hk)
  | add key value =>
    have h1 := keysOf_evictLoop _ _ _ hs k hk
    rcases keysOf_addEntry c key value k h1 with h2 | h2
    · subst h2; exact Or.inr ⟨value, rfl⟩
    · exact Or.inl h2

theorem absent_run {V : Type} [Value V] {c c' : Cache V} {ops : List (Op V)} {k : String}
    (ha : k ∉ keysOf c) (hn : ∀ v, Op.add k v ∉ ops) (hr : run c ops = some c') :
    k ∉ keysOf c' := by
  induction ops generalizing c with
  | nil => simp only [run, Option.some.injEq] at hr; subst hr; exact ha
  | cons op ops ih =>
    rw [run_cons] at hr
    cases hs : step c op with
    | none => simp [hs] at hr
    | some c₁ =>
      simp only [hs, Option.some_bind] at hr
      refine ih ?_ (fun v hv => hn v (List.mem_cons_of_mem _ hv)) hr
      intro hk
      rcases keysOf_step op hs k hk with h | ⟨v, h⟩
      · exact ha h
      · exact hn v (by rw [h]; exact List.mem_cons_self _ _)

/-- The keys of a suffix cut off a well-formed list are absent from what is
left. -/
theorem removed_keys_absent {V : Type} {c c' : Cache V} (h : WF c)
    {removed : List (Element V)} (hl : c.doubleList = c'.doubleList ++ removed)
    {e : Element V} (he : e ∈ removed) : e.kv.key ∉ keysOf c' := by
  have hk := h.keys
  rw [shape_keys, hl, List.map_append, List.nodup_append] at hk
  intro hm
  exact hk.2.2 hm (List.mem_map.mpr ⟨e, he, rfl⟩)

/-- C5: `Get` misses on absent keys.  (1) A key never passed to `Add` misses.
(2) A key absent from the cache at some moment of a call sequence from
`NewCache`, and not passed to `Add` since, misses: `Get` returns the nil value
and false and leaves the state as it is.  (3, 4) The keys of the entries removed
by `RemoveOldest`, and by the eviction loop of an `Add` call, are absent when
the call returns. -/
theorem C5_get_miss {V : Type} [Value V] (capacity : Int) (callback : Bool) (k : String) :
    (∀ (ops : List (Op V)) (c : Cache V),
      (∀ v, Op.add k v ∉ ops) → run (NewCache V capacity callback) ops = some c →
      Get c k = (c, (none, false))) ∧
    (∀ (ops₁ ops₂ : List (Op V)) (c₁ c₂ : Cache V),
      run (NewCache V capacity callback) ops₁ = some c₁ → k ∉ keysOf c₁ →
      (∀ v, Op.add k v ∉ ops₂) → run c₁ ops₂ = some c₂ →
      Get c₂ k = (c₂, (none, false))) ∧
    (∀ (ops : List (Op V)) (c : Cache V) (e : Element V),
      run (NewCache V capacity callback) ops = some c → Back c.doubleList = some e →
      e.kv.key = k → k ∉ keysOf (RemoveOldest c)) ∧
    (∀ (ops : List (Op V)) (c c' : Cache V) (key : String) (value : V),
      run (NewCache V capacity callback) ops = some c → Add c key value = some c' →
      ∃ removed, (addEntry c key value).doubleList = c'.doubleList ++ removed ∧
        (k ∈ removed.map (fun e => e.kv.key) → k ∉ keysOf c')) := by
  have key2 : ∀ (ops₁ ops₂ : List (Op V)) (c₁ c₂ : Cache V),
      run (NewCache V capacity callback) ops₁ = some c₁ → k ∉ keysOf c₁ →
      (∀ v, Op.add k v ∉ ops₂) → run c₁ ops₂ = some c₂ →
      Get c₂ k = (c₂, (none, false)) := by
    intro ops₁ ops₂ c₁ c₂ h1 ha hn h2
    have hw : WF c₂ := WF_run (WF_run (WF_NewCache V capacity callback) h1) h2
    exact Get_miss ((index_none_iff hw k).mpr (absent_run ha hn h2))
  refine ⟨?_, key2, ?_, ?_⟩
  · intro ops c hn hr
    exact key2 [] ops _ c rfl (by simp [keysOf, NewCache]) hn hr
  · intro ops c e hr hb hk
    have hw : WF c := WF_run (WF_NewCache V capacity callback) hr
    obtain ⟨l₁, hl⟩ := Back_eq_some.mp hb
    subst hk
    refine @removed_keys_absent V c _ hw [e] ?_ e (List.mem_singleton_self e)
    rw [RemoveOldest_eq hw hl]
    exact hl
  · intro ops c c' key value hr ha
    have hw : WF c := WF_run (WF_NewCache V capacity callback) hr
    obtain ⟨removed, h1, -⟩ := evictLoop_spec _ _ c' (WF_addEntry hw key value) ha
    refine ⟨removed, h1, fun hm => ?_⟩
    obtain ⟨e, he, hek⟩ := List.mem_map.mp hm
    subst hek
    exact removed_keys_absent (WF_addEntry hw key value) h1 he

/-- Witness of `C5_get_miss`, the second half of `TestGet`: after
`Add("key1", "1111")` only, `Get("key2")` reports false. -/
theorem C5_get_miss_witness :
    (∀ v, Op.add "key2" v ∉ [Op.add "key1" ("1111" : String)]) ∧
    (run (NewCache String 0 false) [Op.add "key1" "1111"]).map (fun c => (Get c "key2").2)
      = some (none, false) := by
  have hn : ∀ v, Op.add "key2" v ∉ [Op.add "key1" ("1111" : String)] := by
    intro v hv
    simp only [List.mem_singleton, Op.add.injEq] at hv
    exact absurd hv.1 (by decide)
  refine ⟨hn, ?_⟩
  obtain ⟨c, hr, -⟩ := run_unbounded (NewCache String 0 false) rfl [Op.add "key1" "1111"]
  rw [hr, Option.map_some', (C5_get_miss 0 false "key2").1 _ c hn hr]

theorem totalCost_nonneg {V : Type} [Value V] {l : List (Element V)}
    (h : ∀ e ∈ l, 0 ≤ Value.Len e.kv.value) : 0 ≤ totalCost l := by
  unfold totalCost
  apply List.sum_nonneg
  intro x hx
  obtain ⟨e, he, rfl⟩ := List.mem_map.mp hx
  have := h e he
  unfold cost
  omega

theorem totalCost_append {V : Type} [Value V] (l₁ l₂ : List (Element V)) :
    totalCost (l₁ ++ l₂) = totalCost l₁ + totalCost l₂ := by
  simp [totalCost]

theorem totalCost_cons {V : Type} [Value V] (e : Element V) (l : List (Element V)) :
    totalCost (e :: l) = cost e + totalCost l := by
  simp [totalCost]

/-- The loop stops, at the latest on the empty list, when the counter would be
within the capacity once every entry is removed. -/
theorem evictLoop_terminates {V : Type} [Value V] (fuel : Nat) (c : Cache V) (h : WF c)
    (hb : c.used - totalCost c.doubleList ≤ c.capacity)
    (hf : c.doubleList.length + 1 ≤ fuel) : ∃ c', evictLoop fuel c = some c' := by
  induction fuel generalizing c with
  | zero => omega
  | succ n ih =>
    rw [evictLoop_succ]
    by_cases hc : c.capacity ≠ 0 ∧ c.used > c.capacity
    · rw [if_pos hc]
      rcases List.eq_nil_or_concat c.doubleList with h0 | ⟨l₁, e, hl⟩
      · rw [h0] at hb
        simp only [totalCost, List.map_nil, List.sum_nil, sub_zero] at hb
        omega
      · have hl2 : c.doubleList = l₁ ++ [e] := by simpa using hl
        have hw := WF_RemoveOldest h
        rw [RemoveOldest_eq h hl2] at hw ⊢
        apply ih _ hw
        · show c.used - cost e - totalCost l₁ ≤ c.capacity
          rw [hl2, totalCost_append, totalCost_cons] at hb
          simp only [totalCost, List.map_nil, List.sum_nil, add_zero] at hb ⊢
          omega
        · show l₁.length + 1 ≤ n
          rw [hl2] at hf
          simp only [List.length_append, List.length_singleton] at hf
          omega
    · rw [if_neg hc]
      exact ⟨c, rfl⟩

theorem nonnegValues_Get {V : Type} [Value V] {c : Cache V} (h : nonnegValues c)
    (key : String) : nonnegValues (Get c key).1 := by
  cases hk : mapGet c.hashmap key with
  | none => rw [Get_miss hk]; exact h
  | some p =>
    cases hd : deref c.doubleList p with
    | none => rw [Get_dangling hk hd]; exact h
    | some e =>
      rw [Get_hit hk hd]
      intro x hx
      exact h x ((MoveToFront_perm c.doubleList p).mem_iff.mp hx)

theorem nonnegValues_RemoveOldest {V : Type} [Value V] {c : Cache V} (h : nonnegValues c) :
    nonnegValues (RemoveOldest c) := by
  unfold RemoveOldest
  cases hb : Back c.doubleList with
  | none => exact h
  | some e =>
    intro x hx
    exact h x ((List.eraseP_sublist c.doubleList).subset hx)

theorem nonnegValues_addEntry {V : Type} [Value V] {c : Cache V} (hw : WF c)
    (h : nonnegValues c) (key : String) (value : V) (hv : 0 ≤ Value.Len value) :
    nonnegValues (addEntry c key value) := by
  cases hk : mapGet c.hashmap key with
  | some p =>
    obtain ⟨l₁, e, l₂, hl, he, -⟩ := index_split hw hk
    subst he
    rw [addEntry_update_eq hw hl value]
    intro x hx
    simp only [List.mem_cons, List.mem_append] at hx
    rcases hx with hx | hx | hx
    · subst hx; exact hv
    · exact h x (by rw [hl]; simp [hx])
    · exact h x (by rw [hl]; simp [hx])
  | none =>
    rw [addEntry_new value hk]
    intro x hx
    simp only [PushFront, List.mem_cons] at hx
    rcases hx with hx | hx
    · subst hx; exact hv
    · exact h x hx

/-- After the `if`/`else` of `Add`, removing every entry would bring the counter
back to at most its value before the call. -/
theorem addEntry_slack {V : Type} [Value V] {c : Cache V} (hw : WF c)
    (h : nonnegValues c) (key : String) (value : V) (hv : 0 ≤ Value.Len value) :
    (addEntry c key value).used - totalCost (addEntry c key value).doubleList ≤ c.used := by
  cases hk : mapGet c.hashmap key with
  | some p =>
    have hn := nonnegValues_addEntry hw h key value hv
    have := totalCost_nonneg hn
    rw [addEntry_hit value hk] at this ⊢
    simp only at this ⊢
    omega
  | none =>
    rw [addEntry_new value hk]
    have := totalCost_nonneg h
    simp only [PushFront, totalCost_cons, cost]
    omega

/-- The invariant behind termination for a positive capacity. -/
theorem run_bounded {V : Type} [Value V] (c : Cache V) (hw : WF c) (hn : nonnegValues c)
    (hpos : 0 < c.capacity) (hu : c.used ≤ c.capacity) (ops : List (Op V))
    (ho : nonnegOps ops) :
    ∃ c', run c ops = some c' ∧ WF c' ∧ nonnegValues c' ∧ c'.capacity = c.capacity ∧
      c'.used ≤ c'.capacity := by
  induction ops generalizing c with
  | nil => exact ⟨c, rfl, hw, hn, rfl, hu⟩
  | cons op ops ih =>
    have ho2 : nonnegOps ops := fun k v hm => ho k v (List.mem_cons_of_mem _ hm)
    have hs : ∃ c₁, step c op = some c₁ ∧ nonnegValues c₁ ∧ c₁.used ≤ c₁.capacity := by
      cases op with
      | get key =>
        refine ⟨_, rfl, nonnegValues_Get hn key, ?_⟩
        rw [capacity_Get]
        cases hk : mapGet c.hashmap key with
        | none => rw [Get_miss hk]; exact hu
        | some p =>
          cases hd : deref c.doubleList p with
          | none => rw [Get_dangling hk hd]; exact hu
          | some e => rw [Get_hit hk hd]; exact hu
      | removeOldest =>
        refine ⟨_, rfl, nonnegValues_RemoveOldest hn, ?_⟩
        rw [capacity_RemoveOldest]
        rcases List.eq_nil_or_concat c.doubleList with h0 | ⟨l₁, e, hl⟩
        · rw [RemoveOldest_nil h0]; exact hu
        · have hl2 : c.doubleList = l₁ ++ [e] := by simpa using hl
          rw [RemoveOldest_eq hw hl2]
          have := hn e (by rw [hl2]; simp)
          show c.used - cost e ≤ c.capacity
          unfold cost
          omega
      | add key value =>
        have hv : 0 ≤ Value.Len value := ho key value (List.mem_cons_self _ _)
        have hsl := addEntry_slack hw hn key value hv
        obtain ⟨c₁, h1⟩ := evictLoop_terminates ((addEntry c key value).doubleList.length + 1)
          (addEntry c key value) (WF_addEntry hw key value)
          (by rw [capacity_addEntry]; omega) (Nat.le_refl _)
        obtain ⟨removed, h2, -, -, -, -, -, h3, -⟩ :=
          evictLoop_spec _ _ c₁ (WF_addEntry hw key value) h1
        have h4 := (evictLoop_exit _ _ _ h1).2
        rw [capacity_addEntry] at h4
        refine ⟨c₁, h1, ?_, ?_⟩
        · intro x hx
          exact nonnegValues_addEntry hw hn key value hv x (by rw [h2]; simp [hx])
        · by_contra hcon
          exact h3 ⟨by omega, by omega⟩
    obtain ⟨c₁, hs, hn₁, hu₁⟩ := hs
    have hc₁ := capacity_step op hs
    obtain ⟨c', hr, h1, h2, h3, h4⟩ := ih c₁ (WF_step hw op hs) hn₁ (by omega) hu₁ ho2
    exact ⟨c', by rw [run_cons, hs]; exact hr, h1, h2, by omega, h4⟩

/-- C6: (1) for every cache with capacity other than 0, in any state, whenever an
`Add` call returns (for whatever fuel its loop needed), `used <= capacity` holds
and the capacity is the one the cache was created with.  (2) `Add` does return:
for a positive capacity and values of non-negative `Len`, every sequence of
`Get`, `Add` and `RemoveOldest` calls from `NewCache` runs to its end, on a
state with `used <= capacity`. -/
theorem C6_used_le_capacity_after_add {V : Type} [Value V] :
    (∀ (fuel : Nat) (c c' : Cache V) (key : String) (value : V),
      c.capacity ≠ 0 → AddFuel fuel c key value = some c' →
      c'.used ≤ c'.capacity ∧ c'.capacity = c.capacity) ∧
    (∀ (capacity : Int) (callback : Bool) (ops : List (Op V)),
      0 < capacity → nonnegOps ops →
      ∃ c, run (NewCache V capacity callback) ops = some c ∧ c.capacity = capacity ∧
        c.used ≤ c.capacity) := by
  constructor
  · intro fuel c c' key value h0 hr
    obtain ⟨h1, h2⟩ := evictLoop_exit _ _ _ hr
    rw [capacity_addEntry] at h2
    refine ⟨?_, h2⟩
    by_contra hcon
    exact h1 ⟨by rw [h2]; exact h0, by omega⟩
  · intro capacity callback ops hpos ho
    obtain ⟨c, hr, -, -, hc, hu⟩ := run_bounded (NewCache V capacity callback)
      (WF_NewCache V capacity callback) (by intro e he; simp [NewCache] at he) hpos
      (by simp [NewCache]; omega) ops ho
    exact ⟨c, hr, hc, hu⟩

/-- Witness of `C6_used_le_capacity_after_add`, scenario 1 of the specification:
`NewCache(10, nil)`, `Add("k1","1234")`, `Add("k2","5678")` ends with
`Len() = 1`, `k1` absent, `k2` present and `used = 6 <= 10`. -/
theorem C6_used_le_capacity_after_add_witness :
    ∃ c c', run (NewCache String 10 false) [Op.add "k1" "1234"] = some c ∧
      c.capacity ≠ 0 ∧ Add c "k2" "5678" = some c' ∧
      (c'.used ≤ c'.capacity ∧ c'.capacity = c.capacity) ∧
      (Len c', (Get c' "k1").2, (Get c' "k2").2, c'.used)
        = (1, (none, false), (some "5678", true), 6) :=
  ⟨addEntry (NewCache String 10 false) "k1" "1234",
    RemoveOldest (addEntry (addEntry (NewCache String 10 false) "k1" "1234") "k2" "5678"),
    rfl, by decide, rfl,
    C6_used_le_capacity_after_add.1 _ _ _ "k2" "5678" (by decide)
      (show AddFuel 3 (addEntry (NewCache String 10 false) "k1" "1234") "k2" "5678" = _ from rfl),
    by decide⟩

/-- C7, at the failing input: with capacity 10, `Add("k","x")` and then
`Add("k","yyyyyyyyyyyyyyy")` both return, and the cache then holds the entry `k`
of cost 1 + 15 = 16 > 10, with nothing evicted; the counter `used` is still 2. -/
theorem C7_contents_exceed_capacity :
    (run (NewCache String 10 false) [Op.add "k" "x", Op.add "k" "yyyyyyyyyyyyyyy"]).map
      (fun c => (c.capacity, keysOf c, totalCost c.doubleList, c.used))
        = some (10, ["k"], 16, 2) := by
  decide

theorem Recent_sublist {V : Type} {l l' : List (Element V)} {touch : String → Nat}
    {now : Nat} (hs : l'.Sublist l) (h : Recent l touch now) : Recent l' touch now :=
  ⟨h.1.sublist (hs.map _), fun e he => h.2 e (hs.subset he)⟩

theorem Recent_mono {V : Type} {l : List (Element V)} {touch : String → Nat}
    {now : Nat} (h : Recent l touch now) : Recent l touch (now + 1) :=
  ⟨h.1, fun e he => Nat.lt_succ_of_lt (h.2 e he)⟩

/-- A node whose key is touched now goes to the front of a list in recency
order that does not hold that key. -/
theorem Recent_cons {V : Type} {rest : List (Element V)} {touch : String → Nat}
    {now : Nat} (h : Recent rest touch now) (e : Element V)
    (hk : e.kv.key ∉ rest.map (fun x => x.kv.key)) :
    Recent (e :: rest) (touched touch e.kv.key now) (now + 1) := by
  have hrest : ∀ x ∈ rest, touched touch e.kv.key now x.kv.key = touch x.kv.key := by
    intro x hx
    have : x.kv.key ≠ e.kv.key := fun hh => hk (List.mem_map.mpr ⟨x, hx, hh⟩)
    simp [touched, this]
  have hmap : rest.map (fun x => touched touch e.kv.key now x.kv.key) =
      rest.map (fun x => touch x.kv.key) := List.map_congr_left hrest
  constructor
  · simp only [List.map_cons, List.pairwise_cons]
    refine ⟨?_, by rw [hmap]; exact h.1⟩
    intro a ha
    rw [hmap] at ha
    obtain ⟨x, hx, rfl⟩ := List.mem_map.mp ha
    have := h.2 x hx
    simp only [touched, if_true]
    exact this
  · intro x hx
    rcases List.mem_cons.mp hx with hx | hx
    · subst hx; simp [touched]
    · rw [hrest x hx]
      exact Nat.lt_succ_of_lt (h.2 x hx)

/-- Moving the node of a touched key to the front keeps recency order. -/
theorem Recent_move {V : Type} {l₁ l₂ : List (Element V)} {e e' : Element V}
    {touch : String → Nat} {now : Nat}
    (hk : ((l₁ ++ e :: l₂).map (fun x => x.kv.key)).Nodup)
    (h : Recent (l₁ ++ e :: l₂) touch now) (he : e'.kv.key = e.kv.key) :
    Recent (e' :: (l₁ ++ l₂)) (touched touch e.kv.key now) (now + 1) := by
  have hsub : (l₁ ++ l₂).Sublist (l₁ ++ e :: l₂) :=
    List.Sublist.append (List.Sublist.refl _) (List.sublist_cons_self _ _)
  have hperm : (l₁ ++ e :: l₂).Perm (e :: (l₁ ++ l₂)) := List.perm_middle
  have hk2 := ((hperm.map (fun x : Element V => x.kv.key)).nodup_iff).mp hk
  simp only [List.map_cons, List.nodup_cons] at hk2
  rw [← he]
  exact Recent_cons (Recent_sublist hsub h) e' (by rw [he]; exact hk2.1)

theorem Recent_Get {V : Type} {c : Cache V} (hw : WF c) {touch : String → Nat} {now : Nat}
    (h : Recent c.doubleList touch now) (key : String) :
    Recent (Get c key).1.doubleList
      (if (Get c key).2.2 then touched touch key now else touch) (now + 1) := by
  cases hk : mapGet c.hashmap key with
  | none => rw [Get_miss hk]; exact Recent_mono h
  | some p =>
    obtain ⟨l₁, e, l₂, hl, he, -⟩ := index_split hw hk
    subst he
    rw [Get_hit_eq hw hl]
    have hkeys := hw.keys
    rw [shape_keys, hl] at hkeys
    rw [hl] at h
    exact Recent_move hkeys h rfl

theorem Recent_addEntry {V : Type} [Value V] {c : Cache V} (hw : WF c)
    {touch : String → Nat} {now : Nat} (h : Recent c.doubleList touch now) (key : String)
    (value : V) :
    Recent (addEntry c key value).doubleList (touched touch key now) (now + 1) := by
  cases hk : mapGet c.hashmap key with
  | some p =>
    obtain ⟨l₁, e, l₂, hl, he, -⟩ := index_split hw hk
    subst he
    rw [addEntry_update_eq hw hl value]
    have hkeys := hw.keys
    rw [shape_keys, hl] at hkeys
    rw [hl] at h
    exact Recent_move hkeys h rfl
  | none =>
    rw [addEntry_new value hk]
    exact Recent_cons h { ptr := c.nextPtr, kv := { key := key, value := value } }
      ((index_none_iff hw key).mp hk)

theorem RemoveOldest_sublist {V : Type} [Value V] (c : Cache V) :
    (RemoveOldest c).doubleList.Sublist c.doubleList := by
  unfold RemoveOldest
  cases hb : Back c.doubleList with
  | none => exact List.Sublist.refl _
  | some e => exact List.eraseP_sublist _

theorem WF_iterate_RemoveOldest {V : Type} [Value V] {c : Cache V} (hw : WF c) (j : Nat) :
    WF (Nat.iterate RemoveOldest j c) ∧
      (Nat.iterate RemoveOldest j c).doubleList.Sublist c.doubleList := by
  induction j with
  | zero => exact ⟨hw, List.Sublist.refl _⟩
  | succ n ih =>
    rw [Function.iterate_succ_apply']
    exact ⟨WF_RemoveOldest ih.1, List.Sublist.trans (RemoveOldest_sublist _) ih.2⟩

/-- What the back of a list in recency order is: every other node has a
strictly later stamp. -/
theorem Recent_back {V : Type} {l₁ : List (Element V)} {e : Element V}
    {touch : String → Nat} {now : Nat} (h : Recent (l₁ ++ [e]) touch now) :
    ∀ x ∈ l₁, touch e.kv.key < touch x.kv.key := by
  intro x hx
  have := h.1
  simp only [List.map_append, List.map_cons, List.map_nil, List.pairwise_append,
    List.mem_map, List.mem_singleton, forall_exists_index, and_imp] at this
  exact this.2.2 _ x hx rfl _ rfl

theorem runT_cons {V : Type} [Value V] (s : Stamped V) (op : Op V) (ops : List (Op V)) :
    runT s (op :: ops) = (stepT s op).bind (fun s' => runT s' ops) := rfl

/-- The stamped step is the plain step on the cache. -/
theorem stepT_cache {V : Type} [Value V] {s s' : Stamped V} (op : Op V)
    (hs : stepT s op = some s') : step s.cache op = some s'.cache := by
  cases op with
  | get key => simp only [stepT, Option.some.injEq] at hs; subst hs; rfl
  | removeOldest => simp only [stepT, Option.some.injEq] at hs; subst hs; rfl
  | add key value =>
    simp only [stepT, Option.map_eq_some'] at hs
    obtain ⟨c', hc, rfl⟩ := hs
    exact hc

/-- The stamped run is the plain run on the cache. -/
theorem runT_cache {V : Type} [Value V] {s s' : Stamped V} {ops : List (Op V)}
    (hr : runT s ops = some s') : run s.cache ops = some s'.cache := by
  induction ops generalizing s with
  | nil => simp only [runT, Option.some.injEq] at hr; subst hr; rfl
  | cons op ops ih =>
    rw [runT_cons] at hr
    cases hs : stepT s op with
    | none => simp [hs] at hr
    | some s₁ =>
      simp only [hs, Option.some_bind] at hr
      rw [run_cons, stepT_cache op hs]
      exact ih hr

theorem Recent_stepT {V : Type} [Value V] {s s' : Stamped V} (op : Op V)
    (hw : WF s.cache) (h : Recent s.cache.doubleList s.touch s.now)
    (hs : stepT s op = some s') : Recent s'.cache.doubleList s'.touch s'.now := by
  cases op with
  | get key =>
    simp only [stepT, Option.some.injEq] at hs; subst hs
    exact Recent_Get hw h key
  | removeOldest =>
    simp only [stepT, Option.some.injEq] at hs; subst hs
    exact Recent_mono (Recent_sublist (RemoveOldest_sublist s.cache) h)
  | add key value =>
    simp only [stepT, Option.map_eq_some'] at hs
    obtain ⟨c', hc, rfl⟩ := hs
    obtain ⟨removed, h1, -⟩ := evictLoop_spec _ _ c' (WF_addEntry hw key value) hc
    have := Recent_addEntry hw h key value
    rw [h1] at this
    exact Recent_sublist (List.sublist_append_left _ _) this

theorem Recent_runT {V : Type} [Value V] {s s' : Stamped V} {ops : List (Op V)}
    (hw : WF s.cache) (h : Recent s.cache.doubleList s.touch s.now)
    (hr : runT s ops = some s') :
    WF s'.cache ∧ Recent s'.cache.doubleList s'.touch s'.now := by
  induction ops generalizing s with
  | nil => simp only [runT, Option.some.injEq] at hr; subst hr; exact ⟨hw, h⟩
  | cons op ops ih =>
    rw [runT_cons] at hr
    cases hs : stepT s op with
    | none => simp [hs] at hr
    | some s₁ =>
      simp only [hs, Option.some_bind] at hr
      exact ih (WF_step hw op (stepT_cache op hs)) (Recent_stepT op hw h hs) hr

/-- A run of the loop that stops is a number of `RemoveOldest` calls, each made
while the loop test held. -/
theorem evictLoop_iterate {V : Type} [Value V] (fuel : Nat) (c c' : Cache V)
    (hr : evictLoop fuel c = some c') :
    ∃ j, c' = Nat.iterate RemoveOldest j c ∧
      ∀ i, i < j → (Nat.iterate RemoveOldest i c).capacity ≠ 0 ∧
        (Nat.iterate RemoveOldest i c).used > (Nat.iterate RemoveOldest i c).capacity := by
  induction fuel generalizing c with
  | zero => simp [evictLoop_zero] at hr
  | succ n ih =>
    rw [evictLoop_succ] at hr
    by_cases hc : c.capacity ≠ 0 ∧ c.used > c.capacity
    · rw [if_pos hc] at hr
      obtain ⟨j, h1, h2⟩ := ih _ hr
      refine ⟨j + 1, by rw [Function.iterate_succ_apply]; exact h1, ?_⟩
      intro i hi
      cases i with
      | zero => exact hc
      | succ i =>
        rw [Function.iterate_succ_apply]
        exact h2 i (by omega)
    · rw [if_neg hc] at hr
      cases hr
      exact ⟨0, rfl, fun i hi => absurd hi (Nat.not_lt_zero i)⟩

/-- On a well-formed state whose list is in recency order, `RemoveOldest`
removes the back node, and every node that stays has a later stamp. -/
theorem RemoveOldest_oldest {V : Type} [Value V] {c : Cache V} (hw : WF c)
    {touch : String → Nat} {now : Nat} (h : Recent c.doubleList touch now)
    {l₁ : List (Element V)} {e : Element V} (hl : c.doubleList = l₁ ++ [e]) :
    (RemoveOldest c).doubleList = l₁ ∧ ∀ x ∈ l₁, touch e.kv.key < touch x.kv.key := by
  refine ⟨by rw [RemoveOldest_eq hw hl], ?_⟩
  rw [hl] at h
  exact Recent_back h

/-- C8: strict LRU eviction order.  Along every call sequence from `NewCache`,
with `touch k` the number of the last call that touched `k` (a `Get` that hit,
an inserting or an updating `Add`): (1) the stamped run is the run of the cache;
(2) `RemoveOldest` removes the back entry, and every entry that stays was
touched strictly later; (3) the same holds at every iteration of the eviction
loop of `Add(key, value)`, the key being touched by that call; (4) the state
`Add` returns is reached by such iterations, each made while the loop test
held. -/
theorem C8_strict_lru_eviction_order {V : Type} [Value V] (capacity : Int) (callback : Bool)
    (ops : List (Op V)) (s : Stamped V)
    (hr : runT (NewStamped V capacity callback) ops = some s) :
    run (NewCache V capacity callback) ops = some s.cache ∧
    (∀ (l₁ : List (Element V)) (e : Element V), s.cache.doubleList = l₁ ++ [e] →
      (RemoveOldest s.cache).doubleList = l₁ ∧
        ∀ x ∈ l₁, s.touch e.kv.key < s.touch x.kv.key) ∧
    (∀ (key : String) (value : V) (j : Nat) (l₁ : List (Element V)) (e : Element V),
      (Nat.iterate RemoveOldest j (addEntry s.cache key value)).doubleList = l₁ ++ [e] →
      (RemoveOldest (Nat.iterate RemoveOldest j (addEntry s.cache key value))).doubleList = l₁ ∧
        ∀ x ∈ l₁, touched s.touch key s.now e.kv.key < touched s.touch key s.now x.kv.key) ∧
    (∀ (key : String) (value : V) (c' : Cache V), Add s.cache key value = some c' →
      ∃ j, c' = Nat.iterate RemoveOldest j (addEntry s.cache key value) ∧
        ∀ i, i < j →
          (Nat.iterate RemoveOldest i (addEntry s.cache key value)).capacity ≠ 0 ∧
          (Nat.iterate RemoveOldest i (addEntry s.cache key value)).used >
            (Nat.iterate RemoveOldest i (addEntry s.cache key value)).capacity) := by
  have h0 : Recent (NewStamped V capacity callback).cache.doubleList
      (NewStamped V capacity callback).touch (NewStamped V capacity callback).now := by
    constructor <;> simp [NewStamped, NewCache]
  obtain ⟨hw, hrec⟩ := Recent_runT (WF_NewCache V capacity callback) h0 hr
  refine ⟨runT_cache hr, fun l₁ e hl => RemoveOldest_oldest hw hrec hl, ?_, ?_⟩
  · intro key value j l₁ e hl
    obtain ⟨hwj, hsub⟩ := WF_iterate_RemoveOldest (WF_addEntry hw key value) j
    exact RemoveOldest_oldest hwj (Recent_sublist hsub (Recent_addEntry hw hrec key value)) hl
  · intro key value c' ha
    exact evictLoop_iterate _ _ c' ha

/-- Witness of `C8_strict_lru_eviction_order`, scenario 3 of the specification:
capacity 12, `Add` of a, b, c (cost 3 each), `Get("a")`, `Add` of d; then
`Add("e","90")` evicts exactly b, whose last touch (call 2) is older than those
of c (3), a (4), d (5) and e (6). -/
theorem C8_strict_lru_eviction_order_witness :
    ∃ s, runT (NewStamped String 12 true)
        [Op.add "a" "12", Op.add "b" "34", Op.add "c" "56", Op.get "a", Op.add "d" "78"]
        = some s ∧
      keysOf (addEntry s.cache "e" "90") = ["e", "d", "a", "c", "b"] ∧
      keysOf (RemoveOldest (addEntry s.cache "e" "90")) = ["e", "d", "a", "c"] ∧
      (∀ x ∈ (RemoveOldest (addEntry s.cache "e" "90")).doubleList,
        touched s.touch "e" s.now "b" < touched s.touch "e" s.now x.kv.key) ∧
      (Add s.cache "e" "90").map (fun c => (keysOf c, c.events))
        = some (["e", "d", "a", "c"], [("b", "34")]) := by
  refine ⟨_, rfl, by decide, by decide, ?_, by decide⟩
  have h := (C8_strict_lru_eviction_order (V := String) 12 true
    [Op.add "a" "12", Op.add "b" "34", Op.add "c" "56", Op.get "a", Op.add "d" "78"] _ (by rfl)).2.2.1
    "e" "90" 0
    [{ ptr := 4, kv := { key := "e", value := "90" } },
     { ptr := 3, kv := { key := "d", value := "78" } },
     { ptr := 0, kv := { key := "a", value := "12" } },
     { ptr := 2, kv := { key := "c", value := "56" } }]
    { ptr := 1, kv := { key := "b", value := "34" } } (by rfl)
  intro x hx
  exact h.2 x (h.1 ▸ hx)

theorem events_Get {V : Type} (c : Cache V) (key : String) :
    (Get c key).1.events = c.events := by
  cases hk : mapGet c.hashmap key with
  | none => rw [Get_miss hk]
  | some p =>
    cases hd : deref c.doubleList p with
    | none => rw [Get_dangling hk hd]
    | some e => rw [Get_hit hk hd]

theorem events_addEntry {V : Type} [Value V] (c : Cache V) (key : String) (value : V) :
    (addEntry c key value).events = c.events := by
  cases hk : mapGet c.hashmap key with
  | none => rw [addEntry_new value hk]
  | some p => rw [addEntry_hit value hk]

theorem callback_addEntry {V : Type} [Value V] (c : Cache V) (key : String) (value : V) :
    (addEntry c key value).callback = c.callback := by
  cases hk : mapGet c.hashmap key with
  | none => rw [addEntry_new value hk]
  | some p => rw [addEntry_hit value hk]

/-- C9: the eviction callback as a log of events.  In every state reachable from
`NewCache` with a callback supplied: `Get` appends nothing; so does the
insertion or update step of `Add` (no event for a replaced value);
`RemoveOldest` appends nothing on an empty cache, and on a non-empty one removes
the back entry and appends exactly its key and stored value; an `Add` call that
returns cuts a suffix `removed` off the list left by its insertion or update
step and appends one event per removed entry, in removal order (back first),
with the key and stored value of that entry.  Without a callback no call
appends anything. -/
theorem C9_eviction_callback_log {V : Type} [Value V] (c : Cache V) (h : Reachable c) :
    (∀ key, (Get c key).1.events = c.events) ∧
    (∀ key value, (addEntry c key value).events = c.events) ∧
    (c.doubleList = [] → (RemoveOldest c).events = c.events) ∧
    (c.callback = true → ∀ (l₁ : List (Element V)) (e : Element V),
      c.doubleList = l₁ ++ [e] →
      (RemoveOldest c).doubleList = l₁ ∧
        (RemoveOldest c).events = c.events ++ [(e.kv.key, e.kv.value)]) ∧
    (c.callback = true → ∀ (key : String) (value : V) (c' : Cache V),
      Add c key value = some c' →
      ∃ removed, (addEntry c key value).doubleList = c'.doubleList ++ removed ∧
        c'.events = c.events ++ removed.reverse.map (fun e => (e.kv.key, e.kv.value))) ∧
    (c.callback = false → ∀ (op : Op V) (c' : Cache V), step c op = some c' →
      c'.events = c.events) := by
  have hw := WF_of_Reachable h
  refine ⟨events_Get c, events_addEntry c, fun h0 => by rw [RemoveOldest_nil h0], ?_, ?_, ?_⟩
  · intro hcb l₁ e hl
    rw [RemoveOldest_eq hw hl]
    simp [hcb]
  · intro hcb key value c' ha
    obtain ⟨removed, h1, h2, -⟩ := evictLoop_spec _ _ c' (WF_addEntry hw key value) ha
    rw [callback_addEntry, events_addEntry, if_pos hcb] at h2
    exact ⟨removed, h1, h2⟩
  · intro hcb op c' hs
    cases op with
    | get key => simp only [step, Option.some.injEq] at hs; subst hs; exact events_Get c key
    | removeOldest =>
      simp only [step, Option.some.injEq] at hs; subst hs
      rcases List.eq_nil_or_concat c.doubleList with h0 | ⟨l₁, e, hl⟩
      · rw [RemoveOldest_nil h0]
      · rw [RemoveOldest_eq hw (by simpa using hl)]
        simp [hcb]
    | add key value =>
      obtain ⟨removed, -, h2, -⟩ := evictLoop_spec _ _ c' (WF_addEntry hw key value) hs
      rw [callback_addEntry, events_addEntry, hcb] at h2
      simpa using h2

/-- Witness of `C9_eviction_callback_log`: capacity 6 with a callback, after
`Add("k1","1234")` the call `Add("k2","5678")` removes `k1` and logs exactly
`("k1","1234")`. -/
theorem C9_eviction_callback_log_witness :
    Reachable (addEntry (NewCache String 6 true) "k1" "1234") ∧
    (addEntry (NewCache String 6 true) "k1" "1234").callback = true ∧
    (Add (addEntry (NewCache String 6 true) "k1" "1234") "k2" "5678").map
      (fun c => (keysOf c, c.events)) = some (["k2"], [("k1", "1234")]) ∧
    ∃ c' removed, Add (addEntry (NewCache String 6 true) "k1" "1234") "k2" "5678" = some c' ∧
      (addEntry (addEntry (NewCache String 6 true) "k1" "1234") "k2" "5678").doubleList
        = c'.doubleList ++ removed ∧
      c'.events = (addEntry (NewCache String 6 true) "k1" "1234").events ++
        removed.reverse.map (fun e => (e.kv.key, e.kv.value)) := by
  have hreach : Reachable (addEntry (NewCache String 6 true) "k1" "1234") :=
    ⟨6, true, [Op.add "k1" "1234"], rfl⟩
  refine ⟨hreach, rfl, by decide, ?_⟩
  obtain ⟨removed, h1, h2⟩ :=
    (C9_eviction_callback_log _ hreach).2.2.2.2.1 rfl "k2" "5678"
      (RemoveOldest (addEntry (addEntry (NewCache String 6 true) "k1" "1234") "k2" "5678")) rfl
  exact ⟨_, removed, rfl, h1, h2⟩

/-- Adding pairwise distinct new keys to an unbounded well-formed cache puts
them in front of the list, last added first, and logs nothing. -/
theorem run_addAll_unbounded {V : Type} [Value V] (kvs : List (String × V)) (c : Cache V)
    (hw : WF c) (h0 : c.capacity = 0) (hn : (kvs.map (fun p => p.1)).Nodup)
    (hd : ∀ p ∈ kvs, p.1 ∉ keysOf c) :
    ∃ c', run c (addAll kvs) = some c' ∧ entriesOf c' = kvs.reverse ++ entriesOf c ∧
      c'.events = c.events ∧ c'.capacity = 0 ∧ WF c' := by
  induction kvs generalizing c with
  | nil => exact ⟨c, rfl, by simp, rfl, h0, hw⟩
  | cons p kvs ih =>
    simp only [List.map_cons, List.nodup_cons] at hn
    have hk : mapGet c.hashmap p.1 = none :=
      (index_none_iff hw p.1).mpr (hd p (List.mem_cons_self _ _))
    have ha : Add c p.1 p.2 = some (addEntry c p.1 p.2) := Add_of_fits c p.1 p.2 (Or.inl h0)
    have hw1 : WF (addEntry c p.1 p.2) := WF_addEntry hw p.1 p.2
    have he1 : entriesOf (addEntry c p.1 p.2) = p :: entriesOf c := by
      rw [addEntry_new p.2 hk]; rfl
    have hd1 : ∀ q ∈ kvs, q.1 ∉ keysOf (addEntry c p.1 p.2) := by
      intro q hq hm
      rcases keysOf_addEntry c p.1 p.2 q.1 hm with h | h
      · exact hn.1 (List.mem_map.mpr ⟨q, hq, h⟩)
      · exact hd q (List.mem_cons_of_mem _ hq) h
    obtain ⟨c', hr, h1, h2, h3, h4⟩ :=
      ih (addEntry c p.1 p.2) hw1 (by rw [capacity_addEntry, h0]) hn.2 hd1
    refine ⟨c', ?_, ?_, ?_, h3, h4⟩
    · show run c (Op.add p.1 p.2 :: addAll kvs) = some c'
      rw [run_cons]
      show (Add c p.1 p.2).bind _ = some c'
      rw [ha]
      exact hr
    · rw [h1, he1]; simp
    · rw [h2, events_addEntry]

/-- In a well-formed state `Get` of the key of a present entry returns its
value. -/
theorem Get_of_mem {V : Type} {c : Cache V} (hw : WF c) {e : Element V}
    (he : e ∈ c.doubleList) : (Get c e.kv.key).2 = (some e.kv.value, true) := by
  obtain ⟨l₁, l₂, hl⟩ := List.append_of_mem he
  rw [Get_hit_eq hw hl]

/-- The insertion or update step of `Add` keeps every entry of another key. -/
theorem mem_addEntry_of_ne {V : Type} [Value V] {c : Cache V} (hw : WF c) (key : String)
    (value : V) {e : Element V} (he : e ∈ c.doubleList) (hne : e.kv.key ≠ key) :
    e ∈ (addEntry c key value).doubleList := by
  cases hk : mapGet c.hashmap key with
  | some p =>
    obtain ⟨l₁, x, l₂, hl, hx, -⟩ := index_split hw hk
    subst hx
    rw [addEntry_update_eq hw hl value]
    rw [hl] at he
    simp only [List.mem_append, List.mem_cons] at he ⊢
    rcases he with h | h | h
    · exact Or.inr (Or.inl h)
    · subst h; exact absurd rfl hne
    · exact Or.inr (Or.inr h)
  | none =>
    rw [addEntry_new value hk]
    exact List.mem_cons_of_mem _ he

theorem length_addEntry {V : Type} [Value V] (c : Cache V) (key : String) (value : V) :
    c.doubleList.length ≤ (addEntry c key value).doubleList.length ∧
      (addEntry c key value).doubleList.length ≤ c.doubleList.length + 1 := by
  cases hk : mapGet c.hashmap key with
  | some p =>
    rw [addEntry_hit value hk]
    have h1 := (MoveToFront_perm (setValue c.doubleList p value) p).length_eq
    have h2 : (setValue c.doubleList p value).length = c.doubleList.length := by
      simp [setValue]
    simp only
    omega
  | none =>
    rw [addEntry_new value hk]
    simp [PushFront]

/-- C11: unbounded mode.  On a cache created with capacity 0, in every state a
call sequence reaches, `Add(key, value)` returns right after its insertion or
update step: the key is then present, every entry of another key is still
there, `Len()` has not decreased and nothing was logged for the callback.  After
`Add` of n pairs with pairwise distinct keys on the new cache, `Len() = n`,
the entries are exactly those pairs (last added first), no callback call was
made and `Get` finds each key with its value. -/
theorem C11_unbounded_mode {V : Type} [Value V] (callback : Bool) :
    (∀ (ops : List (Op V)) (c : Cache V), run (NewCache V 0 callback) ops = some c →
      ∀ (key : String) (value : V),
        Add c key value = some (addEntry c key value) ∧
        key ∈ keysOf (addEntry c key value) ∧
        (∀ e ∈ c.doubleList, e.kv.key ≠ key → e ∈ (addEntry c key value).doubleList) ∧
        Len c ≤ Len (addEntry c key value) ∧
        (addEntry c key value).events = c.events) ∧
    (∀ kvs : List (String × V), (kvs.map (fun p => p.1)).Nodup →
      ∃ c, run (NewCache V 0 callback) (addAll kvs) = some c ∧
        Len c = (kvs.length : Int) ∧ entriesOf c = kvs.reverse ∧ c.events = [] ∧
        ∀ p ∈ kvs, (Get c p.1).2 = (some p.2, true)) := by
  constructor
  · intro ops c hr key value
    have hw : WF c := WF_run (WF_NewCache V 0 callback) hr
    have h0 : c.capacity = 0 := by
      obtain ⟨c₂, hr₂, hc₂⟩ := run_unbounded (NewCache V 0 callback) rfl ops
      rw [hr] at hr₂
      cases hr₂
      exact hc₂
    obtain ⟨e, rest, hl, hk, -⟩ := addEntry_front hw key value
    refine ⟨Add_of_fits c key value (Or.inl h0), ?_,
      fun e he hne => mem_addEntry_of_ne hw key value he hne, ?_, events_addEntry c key value⟩
    · rw [keysOf, hl, ← hk]; simp
    · have := (length_addEntry c key value).1
      unfold Len
      omega
  · intro kvs hn
    obtain ⟨c, hr, h1, h2, -, hw⟩ := run_addAll_unbounded kvs (NewCache V 0 callback)
      (WF_NewCache V 0 callback) rfl hn (by intro p _; simp [keysOf, NewCache])
    have he : entriesOf c = kvs.reverse := by
      rw [h1]; simp [entriesOf, NewCache]
    refine ⟨c, hr, ?_, he, by rw [h2]; rfl, ?_⟩
    · have := congrArg List.length he
      simp only [entriesOf, List.length_map, List.length_reverse] at this
      unfold Len
      rw [this]
    · intro p hp
      have hm : p ∈ entriesOf c := by rw [he]; exact List.mem_reverse.mpr hp
      obtain ⟨e, hel, hee⟩ := List.mem_map.mp hm
      have := Get_of_mem hw hel
      rw [← hee]
      exact this

/-- Witness of `C11_unbounded_mode`, scenario 2 of the specification: 1000
pairwise distinct keys (the strings of 0, 1, ..., 999 letters) added to
`NewCache(0, nil)` give `Len() = 1000`. -/
theorem C11_unbounded_mode_witness :
    (((List.range 1000).map
        (fun i => ((String.mk (List.replicate i 'a'), "v") : String × String))).map
        (fun p => p.1)).Nodup ∧
    ∃ c, run (NewCache String 0 false)
        (addAll ((List.range 1000).map
          (fun i => ((String.mk (List.replicate i 'a'), "v") : String × String)))) = some c ∧
      Len c = 1000 ∧ c.events = [] := by
  have hn : (((List.range 1000).map
      (fun i => ((String.mk (List.replicate i 'a'), "v") : String × String))).map
      (fun p => p.1)).Nodup := by
    rw [List.map_map]
    refine List.Nodup.map ?_ (List.nodup_range 1000)
    intro i j hij
    simp only [Function.comp_apply] at hij
    have := congrArg String.length hij
    simpa [String.length] using this
  obtain ⟨c, hr, hlen, -, hev, -⟩ := (C11_unbounded_mode (V := String) false).2 _ hn
  refine ⟨hn, c, hr, ?_, hev⟩
  rw [hlen]
  simp

/-- Reading a slice only depends on the array at its address. -/
theorem contents_congr {h h' : Heap} {s : Slice} (hp : h'.getD s.ptr [] = h.getD s.ptr []) :
    contents h' (some s) = contents h (some s) := by
  simp only [contents, hp]

theorem getD_sliceSet {h h' : Heap} {s : Slice} {i : Nat} {x : Fin 256} {p : Nat}
    (hs : sliceSet h s i x = some h') (hne : p ≠ s.ptr) :
    h'.getD p [] = h.getD p [] ∧ h'.length = h.length := by
  unfold sliceSet at hs
  split at hs
  · cases hs
    refine ⟨?_, by simp⟩
    simp only [List.getD_eq_getElem?_getD]
    rw [List.getElem?_set_ne (fun hh => hne hh.symm)]
  · cases hs

theorem getD_sliceSets {h h' : Heap} {s : Slice} {ws : List (Nat × Fin 256)} {p : Nat}
    (hs : sliceSets h s ws = some h') (hne : p ≠ s.ptr) :
    h'.getD p [] = h.getD p [] ∧ h'.length = h.length := by
  induction ws generalizing h with
  | nil => simp only [sliceSets, Option.some.injEq] at hs; subst hs; exact ⟨rfl, rfl⟩
  | cons w ws ih =>
    simp only [sliceSets] at hs
    cases h1 : sliceSet h s w.1 w.2 with
    | none => simp [h1] at hs
    | some h₁ =>
      simp only [h1, Option.some_bind] at hs
      obtain ⟨a, b⟩ := ih hs
      obtain ⟨c, d⟩ := getD_sliceSet h1 hne
      exact ⟨a.trans c, b.trans d⟩

theorem getD_append_old {h : Heap} {a : List (Fin 256)} {p : Nat} (hp : p < h.length) :
    (h ++ [a]).getD p [] = h.getD p [] := by
  simp only [List.getD_eq_getElem?_getD]
  rw [List.getElem?_append_left hp]

theorem getD_append_new (h : Heap) (a : List (Fin 256)) :
    (h ++ [a]).getD h.length [] = a := by
  simp [List.getD_eq_getElem?_getD]

/-- The slice returned by `ByteSlice` holds the bytes of the view. -/
theorem contents_ByteSlice (h : Heap) (v : ByteView) :
    contents (v.ByteSlice h).1 (v.ByteSlice h).2 = contents h v.b := by
  unfold ByteView.ByteSlice bytesClone
  cases hb : v.b with
  | none => rfl
  | some s =>
    simp only [contents, getD_append_new, List.drop_zero]
    rw [List.take_of_length_le]
    simp only [List.length_take]
    omega

/-- C12: read-only view.  For every view whose slice lies in the heap,
`ByteSlice()` returns a slice over a newly allocated array (an address that no
slice of the heap has) holding the bytes of the view, the view's own bytes
being untouched; and after any assignments `s[i] = x` through the returned
slice, a later `ByteSlice()` and `String()` on the view still give the bytes
the view had. -/
theorem C12_byte_slice_is_a_copy (h : Heap) (v : ByteView) (hv : validSlice h v.b) :
    contents (v.ByteSlice h).1 (v.ByteSlice h).2 = contents h v.b ∧
    contents (v.ByteSlice h).1 v.b = contents h v.b ∧
    (∀ s, (v.ByteSlice h).2 = some s →
      s.ptr = h.length ∧ (v.ByteSlice h).1.length = h.length + 1 ∧
      ∀ (ws : List (Nat × Fin 256)) (h₂ : Heap),
        sliceSets (v.ByteSlice h).1 s ws = some h₂ →
        contents (v.ByteSlice h₂).1 (v.ByteSlice h₂).2 = contents h v.b ∧
        v.String h₂ = v.String h) := by
  refine ⟨contents_ByteSlice h v, ?_, ?_⟩
  · unfold ByteView.ByteSlice bytesClone
    cases hb : v.b with
    | none => rfl
    | some s₀ =>
      rw [hb] at hv
      exact contents_congr (getD_append_old hv.1)
  · intro s hs
    unfold ByteView.ByteSlice bytesClone at hs ⊢
    cases hb : v.b with
    | none => rw [hb] at hs; cases hs
    | some s₀ =>
      rw [hb] at hs hv
      simp only [Option.some.injEq] at hs
      subst hs
      refine ⟨rfl, by simp, ?_⟩
      intro ws h₂ hw
      have hne : s₀.ptr ≠ h.length := Nat.ne_of_lt hv.1
      obtain ⟨h1, -⟩ := @getD_sliceSets _ h₂ _ ws s₀.ptr hw hne
      have h2 : h₂.getD s₀.ptr [] = h.getD s₀.ptr [] := by
        rw [h1]; exact getD_append_old hv.1
      have h3 : contents h₂ (some s₀) = contents h (some s₀) := contents_congr h2
      constructor
      · have := contents_ByteSlice h₂ v
        unfold ByteView.ByteSlice bytesClone at this
        rw [hb] at this
        rw [this, h3]
      · unfold ByteView.String
        rw [hb]
        exact h3

/-- Witness of `C12_byte_slice_is_a_copy`: the view of bytes 1, 2, 3 at address
0; the copy is at address 1, and after `copy[0] = 9` the view still reads
1, 2, 3. -/
theorem C12_byte_slice_is_a_copy_witness :
    validSlice [[1, 2, 3]] (some { ptr := 0, off := 0, len := 3 }) ∧
    (ByteView.ByteSlice [[1, 2, 3]] { b := some { ptr := 0, off := 0, len := 3 } }).2
      = some { ptr := 1, off := 0, len := 3 } ∧
    sliceSets [[1, 2, 3], [1, 2, 3]] { ptr := 1, off := 0, len := 3 } [(0, 9)]
      = some [[1, 2, 3], [9, 2, 3]] ∧
    contents
        (ByteView.ByteSlice [[1, 2, 3], [9, 2, 3]]
          { b := some { ptr := 0, off := 0, len := 3 } }).1
        (ByteView.ByteSlice [[1, 2, 3], [9, 2, 3]]
          { b := some { ptr := 0, off := 0, len := 3 } }).2
      = [1, 2, 3] ∧
    ByteView.String [[1, 2, 3], [9, 2, 3]] { b := some { ptr := 0, off := 0, len := 3 } }
      = [1, 2, 3] := by
  have hv : validSlice [[1, 2, 3]] (some { ptr := 0, off := 0, len := 3 }) := by
    simp [validSlice]
  have h := (C12_byte_slice_is_a_copy [[1, 2, 3]]
    { b := some { ptr := 0, off := 0, len := 3 } } hv).2.2
    { ptr := 1, off := 0, len := 3 } rfl
  have h2 := h.2.2 [(0, 9)] [[1, 2, 3], [9, 2, 3]] rfl
  exact ⟨hv, rfl, rfl, h2.1, h2.2⟩

/-- C16: the accessors of a view agree.  For every view whose slice lies in the
heap, `Len()` is the length of the bytes of `ByteSlice()`, those bytes are the
wrapped bytes, and `String()` has the same bytes; for the nil view and for
every view with `Len() = 0`, `String()` is empty. -/
theorem C16_byte_view_accessors_agree (h : Heap) (v : ByteView) (hv : validSlice h v.b) :
    v.Len = ((contents (v.ByteSlice h).1 (v.ByteSlice h).2).length : Int) ∧
    contents (v.ByteSlice h).1 (v.ByteSlice h).2 = contents h v.b ∧
    v.String h = contents (v.ByteSlice h).1 (v.ByteSlice h).2 ∧
    (v.b = none → v.Len = 0 ∧ v.String h = [] ∧ (v.ByteSlice h).2 = none) ∧
    (v.Len = 0 → v.String h = []) := by
  have hc := contents_ByteSlice h v
  have hlen : v.Len = ((contents h v.b).length : Int) := by
    unfold ByteView.Len
    cases hb : v.b with
    | none => rfl
    | some s =>
      rw [hb] at hv
      have := hv.2
      simp only [contents, List.length_take, List.length_drop]
      congr 1
      omega
  refine ⟨by rw [hc]; exact hlen, hc, by rw [hc]; rfl, ?_, ?_⟩
  · intro hb
    simp [ByteView.Len, ByteView.String, ByteView.ByteSlice, bytesClone, contents, hb]
  · intro h0
    rw [hlen] at h0
    unfold ByteView.String
    exact List.length_eq_zero.mp (by exact_mod_cast h0)

/-- Witness of `C16_byte_view_accessors_agree`: the view of bytes 7, 8 inside
the array 6, 7, 8, 9. -/
theorem C16_byte_view_accessors_agree_witness :
    validSlice [[6, 7, 8, 9]] (some { ptr := 0, off := 1, len := 2 }) ∧
    ByteView.Len { b := some { ptr := 0, off := 1, len := 2 } } = 2 ∧
    ByteView.String [[6, 7, 8, 9]] { b := some { ptr := 0, off := 1, len := 2 } } = [7, 8] ∧
    contents
        (ByteView.ByteSlice [[6, 7, 8, 9]] { b := some { ptr := 0, off := 1, len := 2 } }).1
        (ByteView.ByteSlice [[6, 7, 8, 9]] { b := some { ptr := 0, off := 1, len := 2 } }).2
      = ByteView.String [[6, 7, 8, 9]] { b := some { ptr := 0, off := 1, len := 2 } } := by
  have hv : validSlice [[6, 7, 8, 9]] (some { ptr := 0, off := 1, len := 2 }) := by
    simp [validSlice]
  have h := C16_byte_view_accessors_agree [[6, 7, 8, 9]]
    { b := some { ptr := 0, off := 1, len := 2 } } hv
  exact ⟨hv, rfl, rfl, h.2.2.1.symm⟩

/-- A run of the loop that stops makes at most one `RemoveOldest` call per node,
each while the test holds and on a non-empty list, and stops on a state that
fails the test. -/
theorem evictLoop_iterate_le {V : Type} [Value V] (fuel : Nat) (c c' : Cache V)
    (hr : evictLoop fuel c = some c') :
    ∃ j, c' = Nat.iterate RemoveOldest j c ∧ j ≤ c.doubleList.length ∧
      (∀ i, i < j →
        ((Nat.iterate RemoveOldest i c).capacity ≠ 0 ∧
          (Nat.iterate RemoveOldest i c).used > (Nat.iterate RemoveOldest i c).capacity) ∧
        (Nat.iterate RemoveOldest i c).doubleList ≠ []) ∧
      ¬ (c'.capacity ≠ 0 ∧ c'.used > c'.capacity) := by
  induction fuel generalizing c with
  | zero => simp [evictLoop_zero] at hr
  | succ n ih =>
    rw [evictLoop_succ] at hr
    by_cases hc : c.capacity ≠ 0 ∧ c.used > c.capacity
    · rw [if_pos hc] at hr
      have hne : c.doubleList ≠ [] := by
        intro h0
        rw [RemoveOldest_nil h0, evictLoop_stuck n c h0 hc] at hr
        cases hr
      obtain ⟨j, h1, h2, h3, h4⟩ := ih _ hr
      rw [length_RemoveOldest] at h2
      have hpos : 0 < c.doubleList.length := List.length_pos.mpr hne
      refine ⟨j + 1, by rw [Function.iterate_succ_apply]; exact h1, by omega, ?_, h4⟩
      intro i hi
      cases i with
      | zero => exact ⟨hc, hne⟩
      | succ i =>
        rw [Function.iterate_succ_apply]
        exact h3 i (by omega)
    · rw [if_neg hc] at hr
      cases hr
      exact ⟨0, rfl, Nat.zero_le _, fun i hi => absurd hi (Nat.not_lt_zero i), hc⟩

theorem nonnegValues_step {V : Type} [Value V] {c c' : Cache V} (hw : WF c)
    (hn : nonnegValues c) (op : Op V) (hop : ∀ k v, op = Op.add k v → 0 ≤ Value.Len v)
    (hs : step c op = some c') : nonnegValues c' := by
  cases op with
  | get key => simp only [step, Option.some.injEq] at hs; subst hs; exact nonnegValues_Get hn key
  | removeOldest =>
    simp only [step, Option.some.injEq] at hs; subst hs; exact nonnegValues_RemoveOldest hn
  | add key value =>
    obtain ⟨removed, h1, -⟩ := evictLoop_spec _ _ c' (WF_addEntry hw key value) hs
    intro x hx
    exact nonnegValues_addEntry hw hn key value (hop key value rfl) x (by rw [h1]; simp [hx])

theorem nonnegValues_run {V : Type} [Value V] {c c' : Cache V} {ops : List (Op V)}
    (hw : WF c) (hn : nonnegValues c) (ho : nonnegOps ops) (hr : run c ops = some c') :
    nonnegValues c' := by
  induction ops generalizing c with
  | nil => simp only [run, Option.some.injEq] at hr; subst hr; exact hn
  | cons op ops ih =>
    rw [run_cons] at hr
    cases hs : step c op with
    | none => simp [hs] at hr
    | some c₁ =>
      simp only [hs, Option.some_bind] at hr
      refine ih (WF_step hw op hs) ?_ (fun k v hm => ho k v (List.mem_cons_of_mem _ hm)) hr
      exact nonnegValues_step hw hn op
        (fun k v hkv => ho k v (by rw [hkv]; exact List.mem_cons_self _ _)) hs

theorem capacity_run {V : Type} [Value V] {c c' : Cache V} {ops : List (Op V)}
    (hr : run c ops = some c') : c'.capacity = c.capacity := by
  induction ops generalizing c with
  | nil => simp only [run, Option.some.injEq] at hr; subst hr; rfl
  | cons op ops ih =>
    rw [run_cons] at hr
    cases hs : step c op with
    | none => simp [hs] at hr
    | some c₁ =>
      simp only [hs, Option.some_bind] at hr
      rw [ih hr, capacity_step op hs]

/-- The invariants of a cache of capacity at least 0 fed values of non-negative
`Len`: the sequence runs to its end, on a well-formed state with non-negative
values and, for a positive capacity, `used <= capacity`. -/
theorem run_nonneg {V : Type} [Value V] (capacity : Int) (callback : Bool)
    (ops : List (Op V)) (hcap : 0 ≤ capacity) (ho : nonnegOps ops) :
    ∃ c, run (NewCache V capacity callback) ops = some c ∧ WF c ∧ nonnegValues c ∧
      c.capacity = capacity ∧ (0 < capacity → c.used ≤ c.capacity) := by
  have hn0 : nonnegValues (NewCache V capacity callback) := by
    intro e he; simp [NewCache] at he
  rcases lt_or_eq_of_le hcap with hpos | h0
  · obtain ⟨c, hr, hw, hn, hc, hu⟩ := run_bounded (NewCache V capacity callback)
      (WF_NewCache V capacity callback) hn0 hpos (by simp [NewCache]; omega) ops ho
    exact ⟨c, hr, hw, hn, hc, fun _ => hu⟩
  · subst h0
    obtain ⟨c, hr, hc⟩ := run_unbounded (NewCache V 0 callback) rfl ops
    have hw := WF_run (WF_NewCache V 0 callback) hr
    exact ⟨c, hr, hw, nonnegValues_run (WF_NewCache V 0 callback) hn0 ho hr, hc,
      fun h => absurd h (lt_irrefl _)⟩

/-- In a state satisfying those invariants `Add` of a value of non-negative
`Len` returns, after at most one `RemoveOldest` call per entry present plus
one, none of them on an empty list. -/
theorem Add_iterations {V : Type} [Value V] {c : Cache V} (hw : WF c)
    (hn : nonnegValues c) (hcap : 0 ≤ c.capacity) (hu : 0 < c.capacity → c.used ≤ c.capacity)
    (key : String) (value : V) (hv : 0 ≤ Value.Len value) :
    ∃ c' j, Add c key value = some c' ∧
      c' = Nat.iterate RemoveOldest j (addEntry c key value) ∧
      j ≤ c.doubleList.length + 1 ∧
      (∀ i, i < j →
        ((Nat.iterate RemoveOldest i (addEntry c key value)).capacity ≠ 0 ∧
          (Nat.iterate RemoveOldest i (addEntry c key value)).used >
            (Nat.iterate RemoveOldest i (addEntry c key value)).capacity) ∧
        (Nat.iterate RemoveOldest i (addEntry c key value)).doubleList ≠ []) ∧
      (c'.capacity = 0 ∨ c'.used ≤ c'.capacity) := by
  have hret : ∃ c', Add c key value = some c' := by
    rcases lt_or_eq_of_le hcap with hpos | h0
    · have hsl := addEntry_slack hw hn key value hv
      have := hu hpos
      exact evictLoop_terminates _ (addEntry c key value) (WF_addEntry hw key value)
        (by rw [capacity_addEntry]; omega) (Nat.le_refl _)
    · exact ⟨_, Add_of_fits c key value (Or.inl h0.symm)⟩
  obtain ⟨c', ha⟩ := hret
  obtain ⟨j, h1, h2, h3, h4⟩ := evictLoop_iterate_le _ _ c' ha
  have hlen := (length_addEntry c key value).2
  refine ⟨c', j, ha, h1, by omega, h3, ?_⟩
  by_cases h0 : c'.capacity = 0
  · exact Or.inl h0
  · right
    by_contra hcon
    exact h4 ⟨h0, by omega⟩

/-- C14: the effect of `Get` in every state reachable from `NewCache`.  A hit on
the entry `e` of the key, the list being `l₁`, `e`, `l₂`: the list becomes `e`,
`l₁`, `l₂`, the stored value of `e` is returned, and index, capacity, `used`,
callback log and every entry are as before (so are the set of keys and
`Len()`).  A miss returns the nil value and leaves the whole state
unchanged.  `Get` hits exactly on the keys present. -/
theorem C14_get_effect {V : Type} [Value V] (c : Cache V) (h : Reachable c) (key : String) :
    (∀ (l₁ l₂ : List (Element V)) (e : Element V),
      c.doubleList = l₁ ++ e :: l₂ → e.kv.key = key →
      Get c key = ({ c with doubleList := e :: (l₁ ++ l₂) }, (some e.kv.value, true)) ∧
      Len (Get c key).1 = Len c ∧ (keysOf (Get c key).1).Perm (keysOf c)) ∧
    (key ∉ keysOf c → Get c key = (c, (none, false))) ∧
    ((Get c key).2.2 = true ↔ key ∈ keysOf c) := by
  have hw := WF_of_Reachable h
  have hmiss : key ∉ keysOf c → Get c key = (c, (none, false)) :=
    fun hk => Get_miss ((index_none_iff hw key).mpr hk)
  refine ⟨?_, hmiss, ?_⟩
  · intro l₁ l₂ e hl hk
    subst hk
    have hg := Get_hit_eq hw hl
    refine ⟨hg, ?_, keysOf_Get c e.kv.key⟩
    rw [hg]
    unfold Len
    rw [hl]
    simp
    omega
  · constructor
    · intro hok
      by_contra hk
      rw [hmiss hk] at hok
      cases hok
    · intro hk
      obtain ⟨e, he, hek⟩ := List.mem_map.mp hk
      have := Get_of_mem hw he
      rw [hek] at this
      rw [this]

/-- Witness of `C14_get_effect`: with `b` in front of `a`, `Get("a")` moves `a`
to the front and returns its value. -/
theorem C14_get_effect_witness :
    Reachable (addEntry (addEntry (NewCache String 0 false) "a" "12") "b" "34") ∧
    Get (addEntry (addEntry (NewCache String 0 false) "a" "12") "b" "34") "a" =
      ({ addEntry (addEntry (NewCache String 0 false) "a" "12") "b" "34" with
          doubleList := [{ ptr := 0, kv := { key := "a", value := "12" } },
                         { ptr := 1, kv := { key := "b", value := "34" } }] },
        (some "12", true)) := by
  have hreach : Reachable (addEntry (addEntry (NewCache String 0 false) "a" "12") "b" "34") :=
    ⟨0, false, [Op.add "a" "12", Op.add "b" "34"], rfl⟩
  exact ⟨hreach, ((C14_get_effect _ hreach "a").1
    [{ ptr := 1, kv := { key := "b", value := "34" } }] []
    { ptr := 0, kv := { key := "a", value := "12" } } rfl rfl).1⟩

/-- C15: index and list in every state reachable from `NewCache`.  The keys of
the list are pairwise distinct, so are the keys of the index, both have the same
keys, every index key maps to the address of the node of the list that carries
this key, every node is indexed under its key, and `Len()` is the number of
keys of the index. -/
theorem C15_index_list_bijection {V : Type} [Value V] (c : Cache V) (h : Reachable c) :
    (keysOf c).Nodup ∧
    (c.hashmap.map (fun e => e.1)).Nodup ∧
    (∀ k, k ∈ c.hashmap.map (fun e => e.1) ↔ k ∈ keysOf c) ∧
    (∀ k p, mapGet c.hashmap k = some p →
      ∃ e, e ∈ c.doubleList ∧ deref c.doubleList p = some e ∧ e.kv.key = k) ∧
    (∀ e ∈ c.doubleList, mapGet c.hashmap e.kv.key = some e.ptr) ∧
    Len c = (c.hashmap.length : Int) := by
  have hw := WF_of_Reachable h
  have hk : (keysOf c).Nodup := by
    have := hw.keys
    rw [shape_keys] at this
    exact this
  have hiff : ∀ k, k ∈ c.hashmap.map (fun e => e.1) ↔ k ∈ keysOf c := by
    intro k
    rw [← not_iff_not, ← mapGet_none_iff, index_none_iff hw]
  refine ⟨hk, hw.mapKeys, hiff, ?_, fun e he => index_of_mem hw he, ?_⟩
  · intro k p hg
    obtain ⟨l₁, e, l₂, hl, hek, hep⟩ := index_split hw hg
    have hm : e ∈ c.doubleList := by rw [hl]; simp
    refine ⟨e, hm, ?_, hek⟩
    rw [← hep]
    exact deref_of_mem hw.ptrs hm
  · have hp : (c.hashmap.map (fun e => e.1)).Perm (keysOf c) :=
      (List.perm_ext_iff_of_nodup hw.mapKeys hk).mpr hiff
    have := hp.length_eq
    simp only [keysOf, List.length_map] at this
    unfold Len
    rw [this]

/-- Witness of `C15_index_list_bijection`: the state after `Add("k1","1234")` and
`Add("k2","56")` on an unbounded cache. -/
theorem C15_index_list_bijection_witness :
    Reachable (addEntry (addEntry (NewCache String 0 false) "k1" "1234") "k2" "56") ∧
    keysOf (addEntry (addEntry (NewCache String 0 false) "k1" "1234") "k2" "56")
      = ["k2", "k1"] ∧
    (addEntry (addEntry (NewCache String 0 false) "k1" "1234") "k2" "56").hashmap
      = [("k2", 1), ("k1", 0)] ∧
    Len (addEntry (addEntry (NewCache String 0 false) "k1" "1234") "k2" "56")
      = (((addEntry (addEntry (NewCache String 0 false) "k1" "1234") "k2" "56").hashmap.length
          : Nat) : Int) := by
  have hreach :
      Reachable (addEntry (addEntry (NewCache String 0 false) "k1" "1234") "k2" "56") :=
    ⟨0, false, [Op.add "k1" "1234", Op.add "k2" "56"], rfl⟩
  exact ⟨hreach, rfl, rfl, (C15_index_list_bijection _ hreach).2.2.2.2.2⟩

/-- C17: in every state reachable from `NewCache`, when `Add(key, value)`
returns, either the cache is empty or the entry of `key` is at the front of the
list and holds `value` (and `Get` finds it); the key is absent after the call
only if the cache is empty. -/
theorem C17_added_key_evicted_last {V : Type} [Value V] (c : Cache V) (h : Reachable c)
    (key : String) (value : V) (c' : Cache V) (ha : Add c key value = some c') :
    (c'.doubleList = [] ∨
      ∃ e rest, c'.doubleList = e :: rest ∧ e.kv.key = key ∧ e.kv.value = value ∧
        (Get c' key).2 = (some value, true)) ∧
    (key ∉ keysOf c' → c'.doubleList = []) := by
  have hw := WF_of_Reachable h
  obtain ⟨e, rest, hl, hk, hv⟩ := addEntry_front hw key value
  obtain ⟨removed, h1, -⟩ := evictLoop_spec _ _ c' (WF_addEntry hw key value) ha
  rw [hl] at h1
  cases hc : c'.doubleList with
  | nil => exact ⟨Or.inl rfl, fun _ => rfl⟩
  | cons a l =>
    rw [hc] at h1
    simp only [List.cons_append, List.cons.injEq] at h1
    have hae : a = e := h1.1.symm
    subst hae
    have hg := Get_after_Add hw ha (by rw [hc]; simp)
    refine ⟨Or.inr ⟨a, l, rfl, hk, hv, hg⟩, ?_⟩
    intro hn
    exfalso
    apply hn
    rw [keysOf, hc, ← hk]
    simp

/-- Witness of `C17_added_key_evicted_last`: capacity 10 holding `k1` (cost 6);
`Add("k2","5678")` evicts `k1` and returns with `k2` at the front. -/
theorem C17_added_key_evicted_last_witness :
    Reachable (addEntry (NewCache String 10 false) "k1" "1234") ∧
    Add (addEntry (NewCache String 10 false) "k1" "1234") "k2" "5678" =
      some (RemoveOldest
        (addEntry (addEntry (NewCache String 10 false) "k1" "1234") "k2" "5678")) ∧
    ((RemoveOldest
        (addEntry (addEntry (NewCache String 10 false) "k1" "1234") "k2" "5678")).doubleList
        = [] ∨
      ∃ e rest,
        (RemoveOldest
          (addEntry (addEntry (NewCache String 10 false) "k1" "1234") "k2" "5678")).doubleList
          = e :: rest ∧ e.kv.key = "k2" ∧ e.kv.value = "5678" ∧
        (Get (RemoveOldest
          (addEntry (addEntry (NewCache String 10 false) "k1" "1234") "k2" "5678")) "k2").2
          = (some "5678", true)) := by
  have hreach : Reachable (addEntry (NewCache String 10 false) "k1" "1234") :=
    ⟨10, false, [Op.add "k1" "1234"], rfl⟩
  exact ⟨hreach, rfl, (C17_added_key_evicted_last _ hreach "k2" "5678" _ rfl).1⟩

theorem totalCost_perm {V : Type} [Value V] {l l' : List (Element V)} (h : l.Perm l') :
    totalCost l = totalCost l' :=
  (h.map cost).sum_eq

theorem drift_Get {V : Type} [Value V] (c : Cache V) (key : String) :
    (Get c key).1.used - totalCost (Get c key).1.doubleList
      = c.used - totalCost c.doubleList := by
  cases hk : mapGet c.hashmap key with
  | none => rw [Get_miss hk]
  | some p =>
    cases hd : deref c.doubleList p with
    | none => rw [Get_dangling hk hd]
    | some e =>
      rw [Get_hit hk hd]
      simp only
      rw [totalCost_perm (MoveToFront_perm c.doubleList p)]

theorem drift_RemoveOldest {V : Type} [Value V] {c : Cache V} (hw : WF c) :
    (RemoveOldest c).used - totalCost (RemoveOldest c).doubleList
      = c.used - totalCost c.doubleList := by
  rcases List.eq_nil_or_concat c.doubleList with h0 | ⟨l₁, e, hl⟩
  · rw [RemoveOldest_nil h0]
  · have hl2 : c.doubleList = l₁ ++ [e] := by simpa using hl
    rw [RemoveOldest_eq hw hl2, hl2, totalCost_append, totalCost_cons]
    simp only [totalCost, List.map_nil, List.sum_nil]
    ring

theorem drift_Add_insert {V : Type} [Value V] {c c' : Cache V} (hw : WF c) {key : String}
    {value : V} (hk : key ∉ keysOf c) (ha : Add c key value = some c') :
    c'.used - totalCost c'.doubleList = c.used - totalCost c.doubleList := by
  obtain ⟨removed, h1, -, h3, -⟩ := evictLoop_spec _ _ c' (WF_addEntry hw key value) ha
  have hg : mapGet c.hashmap key = none := (index_none_iff hw key).mpr hk
  rw [addEntry_new value hg] at h1 h3
  simp only [PushFront] at h1 h3
  have h4 := congrArg totalCost h1
  rw [totalCost_cons, totalCost_append] at h4
  simp only [cost] at h4
  rw [h3]
  omega

/-! ### Machine arithmetic -/

theorem wrap64_eq {x : Int} (h1 : minInt64 ≤ x) (h2 : x ≤ maxInt64) : wrap64 x = x := by
  unfold minInt64 at h1
  unfold maxInt64 at h2
  unfold wrap64
  omega

theorem cost_nonneg {V : Type} [Value V] {e : Element V} (h : 0 ≤ Value.Len e.kv.value) :
    0 ≤ cost e := by
  unfold cost
  omega

theorem cost_le_totalCost {V : Type} [Value V] {l : List (Element V)}
    (hn : ∀ e ∈ l, 0 ≤ Value.Len e.kv.value) {e : Element V} (he : e ∈ l) :
    cost e ≤ totalCost l := by
  obtain ⟨l₁, l₂, rfl⟩ := List.append_of_mem he
  rw [totalCost_append, totalCost_cons]
  have h1 := totalCost_nonneg (l := l₁) (fun x hx => hn x (by simp [hx]))
  have h2 := totalCost_nonneg (l := l₂) (fun x hx => hn x (by simp [hx]))
  omega

theorem Safe_of_Budget {V : Type} [Value V] {A : Int} {c : Cache V} (h : Budget A c)
    (hA : A ≤ maxInt64) : Safe c := by
  obtain ⟨hw, hn, h1, h2, h3⟩ := h
  exact ⟨hw, hn, by omega, by omega, by omega⟩

theorem Budget_mono {V : Type} [Value V] {A A' : Int} {c : Cache V} (h : Budget A c)
    (hA : A ≤ A') : Budget A' c := by
  obtain ⟨hw, hn, h1, h2, h3⟩ := h
  exact ⟨hw, hn, by omega, by omega, by omega⟩

/-- On a state whose counters are in range the machine `RemoveOldest` is the
ideal one. -/
theorem RemoveOldest64_eq {V : Type} [Value V] {c : Cache V} (h : Safe c) :
    RemoveOldest64 c = RemoveOldest c := by
  obtain ⟨hw, hn, h1, h2, h3⟩ := h
  unfold RemoveOldest64 RemoveOldest
  cases hb : Back c.doubleList with
  | none => rfl
  | some e =>
    obtain ⟨l₁, hl⟩ := Back_eq_some.mp hb
    have he : e ∈ c.doubleList := by rw [hl]; simp
    have hc0 := cost_nonneg (hn e he)
    have hc1 := cost_le_totalCost hn he
    unfold cost at hc0 hc1
    have e1 : wrap64 ((e.kv.key.utf8ByteSize : Int) + Value.Len e.kv.value)
        = (e.kv.key.utf8ByteSize : Int) + Value.Len e.kv.value :=
      wrap64_eq (by unfold minInt64; omega) (by omega)
    have e2 : wrap64 (c.used - ((e.kv.key.utf8ByteSize : Int) + Value.Len e.kv.value))
        = c.used - ((e.kv.key.utf8ByteSize : Int) + Value.Len e.kv.value) :=
      wrap64_eq (by unfold minInt64; unfold maxInt64 at h2; omega) (by omega)
    simp only [e1, e2]

theorem Budget_RemoveOldest {V : Type} [Value V] {A : Int} {c : Cache V} (h : Budget A c) :
    Budget A (RemoveOldest c) := by
  obtain ⟨hw, hn, h1, h2, h3⟩ := h
  rcases List.eq_nil_or_concat c.doubleList with h0 | ⟨l₁, e, hl⟩
  · rw [RemoveOldest_nil h0]; exact ⟨hw, hn, h1, h2, h3⟩
  · have hl2 : c.doubleList = l₁ ++ [e] := by simpa using hl
    have hw' := WF_RemoveOldest hw
    have hn' := nonnegValues_RemoveOldest hn
    have hc0 := cost_nonneg (hn e (by rw [hl2]; simp))
    rw [RemoveOldest_eq hw hl2] at hw' hn' ⊢
    rw [hl2, totalCost_append, totalCost_cons] at h1 h2
    simp only [totalCost, List.map_nil, List.sum_nil, add_zero] at h1 h2
    refine ⟨hw', hn', ?_, ?_, ?_⟩
    · show totalCost l₁ ≤ A
      unfold totalCost; omega
    · show totalCost l₁ - A ≤ c.used - cost e
      unfold totalCost; omega
    · show c.used - cost e ≤ A
      omega

theorem Safe_RemoveOldest {V : Type} [Value V] {c : Cache V} (h : Safe c) :
    Safe (RemoveOldest c) :=
  Budget_RemoveOldest (A := maxInt64) h

theorem evictLoop64_zero {V : Type} [Value V] (c : Cache V) : evictLoop64 0 c = none := rfl

theorem evictLoop64_succ {V : Type} [Value V] (fuel : Nat) (c : Cache V) :
    evictLoop64 (fuel + 1) c =
      if c.capacity ≠ 0 ∧ c.used > c.capacity then evictLoop64 fuel (RemoveOldest64 c)
      else some c := rfl

/-- From a state whose counters are in range the machine loop is the ideal
one. -/
theorem evictLoop64_eq {V : Type} [Value V] (fuel : Nat) {c : Cache V} (h : Safe c) :
    evictLoop64 fuel c = evictLoop fuel c := by
  induction fuel generalizing c with
  | zero => rfl
  | succ n ih =>
    rw [evictLoop64_succ, evictLoop_succ, RemoveOldest64_eq h, ih (Safe_RemoveOldest h)]

theorem iterate_RemoveOldest64_eq {V : Type} [Value V] (j : Nat) {c : Cache V} (h : Safe c) :
    Nat.iterate RemoveOldest64 j c = Nat.iterate RemoveOldest j c ∧
      Safe (Nat.iterate RemoveOldest j c) := by
  induction j with
  | zero => exact ⟨rfl, h⟩
  | succ n ih =>
    rw [Function.iterate_succ_apply', Function.iterate_succ_apply', ih.1,
      RemoveOldest64_eq ih.2]
    exact ⟨rfl, Safe_RemoveOldest ih.2⟩

/-- The machine insertion or update step is the ideal one when `used` is in
range, the size added is between 0 and `maxInt64`, and so is `used` plus that
size. -/
theorem addEntry64_eq {V : Type} [Value V] {c : Cache V} (key : String) (value : V)
    (h1 : minInt64 ≤ c.used) (h2 : c.used ≤ maxInt64) (hv : 0 ≤ Value.Len value)
    (h3 : c.used + ((key.utf8ByteSize : Int) + Value.Len value) ≤ maxInt64)
    (h4 : (key.utf8ByteSize : Int) + Value.Len value ≤ maxInt64) :
    addEntry64 c key value = addEntry c key value := by
  cases hk : mapGet c.hashmap key with
  | some p =>
    have hs : (match deref (setValue c.doubleList p value) p with
        | some element => element.kv.value
        | none => value) = value := by
      cases hd : deref (setValue c.doubleList p value) p with
      | none => rfl
      | some e => exact deref_setValue_value hd
    have e0 : wrap64 0 = 0 := by decide
    simp only [addEntry64, addEntry, hk, hs, sub_self, e0, add_zero, wrap64_eq h1 h2]
  | none =>
    have e1 : wrap64 ((key.utf8ByteSize : Int) + Value.Len value)
        = (key.utf8ByteSize : Int) + Value.Len value :=
      wrap64_eq (by unfold minInt64; omega) h4
    have e2 : wrap64 (c.used + ((key.utf8ByteSize : Int) + Value.Len value))
        = c.used + ((key.utf8ByteSize : Int) + Value.Len value) :=
      wrap64_eq (by unfold minInt64 at h1 ⊢; omega) h3
    simp only [addEntry64, addEntry, hk, e1, e2]

/-- The insertion or update step of `Add` stays within the budget enlarged by
the size passed. -/
theorem Budget_addEntry {V : Type} [Value V] {A : Int} {c : Cache V} (h : Budget A c)
    (key : String) (value : V) (hv : 0 ≤ Value.Len value) :
    Budget (A + ((key.utf8ByteSize : Int) + Value.Len value)) (addEntry c key value) := by
  obtain ⟨hw, hn, h1, h2, h3⟩ := h
  have hw' := WF_addEntry hw key value
  have hn' := nonnegValues_addEntry hw hn key value hv
  refine ⟨hw', hn', ?_⟩
  cases hk : mapGet c.hashmap key with
  | some p =>
    obtain ⟨l₁, e, l₂, hl, he, -⟩ := index_split hw hk
    subst he
    have hc0 := cost_nonneg (hn e (by rw [hl]; simp))
    rw [addEntry_update_eq hw hl value]
    rw [hl, totalCost_append, totalCost_cons] at h1 h2
    simp only [totalCost_cons, totalCost_append]
    have hce : cost ({ e with kv := { e.kv with value := value } } : Element V)
        = (e.kv.key.utf8ByteSize : Int) + Value.Len value := rfl
    rw [hce]
    refine ⟨by omega, by omega, by omega⟩
  | none =>
    rw [addEntry_new value hk]
    simp only [PushFront, totalCost_cons]
    have hce : cost ({ ptr := c.nextPtr, kv := { key := key, value := value } } : Element V)
        = (key.utf8ByteSize : Int) + Value.Len value := rfl
    rw [hce]
    refine ⟨by omega, by omega, by omega⟩

theorem Budget_Get {V : Type} [Value V] {A : Int} {c : Cache V} (h : Budget A c)
    (key : String) : Budget A (Get c key).1 := by
  obtain ⟨hw, hn, h1, h2, h3⟩ := h
  refine ⟨WF_Get hw key, nonnegValues_Get hn key, ?_⟩
  cases hk : mapGet c.hashmap key with
  | none => rw [Get_miss hk]; exact ⟨h1, h2, h3⟩
  | some p =>
    cases hd : deref c.doubleList p with
    | none => rw [Get_dangling hk hd]; exact ⟨h1, h2, h3⟩
    | some e =>
      rw [Get_hit hk hd]
      simp only
      rw [totalCost_perm (MoveToFront_perm c.doubleList p)]
      exact ⟨h1, h2, h3⟩

theorem Budget_evictLoop {V : Type} [Value V] {A : Int} (fuel : Nat) {c c' : Cache V}
    (h : Budget A c) (hr : evictLoop fuel c = some c') : Budget A c' := by
  induction fuel generalizing c with
  | zero => simp [evictLoop_zero] at hr
  | succ n ih =>
    rw [evictLoop_succ] at hr
    by_cases hc : c.capacity ≠ 0 ∧ c.used > c.capacity
    · rw [if_pos hc] at hr
      exact ih (Budget_RemoveOldest h) hr
    · rw [if_neg hc] at hr
      cases hr; exact h

theorem Budget_nonneg {V : Type} [Value V] {A : Int} {c : Cache V} (h : Budget A c) :
    0 ≤ A := by
  obtain ⟨-, hn, h1, -, -⟩ := h
  have := totalCost_nonneg hn
  omega

/-- Within the budget the machine `Add` is the ideal one. -/
theorem Add64_eq {V : Type} [Value V] {A : Int} {c : Cache V} (h : Budget A c)
    (key : String) (value : V) (hv : 0 ≤ Value.Len value)
    (hA : A + ((key.utf8ByteSize : Int) + Value.Len value) ≤ maxInt64) :
    addEntry64 c key value = addEntry c key value ∧ Add64 c key value = Add c key value ∧
      ∀ fuel, AddFuel64 fuel c key value = AddFuel fuel c key value := by
  have hA0 := Budget_nonneg h
  have hb := Budget_addEntry h key value hv
  obtain ⟨-, hn, h1, h2, h3⟩ := h
  have hL := totalCost_nonneg hn
  have he : addEntry64 c key value = addEntry c key value :=
    addEntry64_eq key value (by unfold minInt64; unfold maxInt64 at hA; omega) (by omega) hv
      (by omega) (by omega)
  have hs : Safe (addEntry c key value) := Safe_of_Budget hb hA
  refine ⟨he, ?_, ?_⟩
  · unfold Add64 Add AddFuel64 AddFuel
    rw [he, evictLoop64_eq _ hs]
  · intro fuel
    unfold AddFuel64 AddFuel
    rw [he, evictLoop64_eq _ hs]

theorem opCost_nonneg {V : Type} [Value V] (op : Op V)
    (h : ∀ k v, op = Op.add k v → 0 ≤ Value.Len v) : 0 ≤ opCost op := by
  cases op with
  | get key => simp [opCost]
  | removeOldest => simp [opCost]
  | add key value =>
    have := h key value rfl
    simp only [opCost]
    omega

theorem opsCost_cons {V : Type} [Value V] (op : Op V) (ops : List (Op V)) :
    opsCost (op :: ops) = opCost op + opsCost ops := by
  simp [opsCost]

theorem opsCost_nonneg {V : Type} [Value V] {ops : List (Op V)} (ho : nonnegOps ops) :
    0 ≤ opsCost ops := by
  induction ops with
  | nil => simp [opsCost]
  | cons op ops ih =>
    rw [opsCost_cons]
    have h1 := opCost_nonneg op
      (fun k v hkv => ho k v (by rw [hkv]; exact List.mem_cons_self _ _))
    have h2 := ih (fun k v hm => ho k v (List.mem_cons_of_mem _ hm))
    omega

theorem run64_cons {V : Type} [Value V] (c : Cache V) (op : Op V) (ops : List (Op V)) :
    run64 c (op :: ops) = (step64 c op).bind (fun c' => run64 c' ops) := rfl

/-- Within the budget a machine call is the ideal call, and the state it returns
is within the budget enlarged by the size the call passed. -/
theorem step64_eq_step {V : Type} [Value V] {A : Int} {c : Cache V} (h : Budget A c)
    (op : Op V) (hop : ∀ k v, op = Op.add k v → 0 ≤ Value.Len v)
    (hA : A + opCost op ≤ maxInt64) :
    step64 c op = step c op ∧ ∀ c', step c op = some c' → Budget (A + opCost op) c' := by
  cases op with
  | get key =>
    refine ⟨rfl, fun c' hs => ?_⟩
    simp only [step, Option.some.injEq] at hs
    subst hs
    simp only [opCost, add_zero]
    exact Budget_Get h key
  | removeOldest =>
    simp only [opCost, add_zero] at hA ⊢
    refine ⟨?_, fun c' hs => ?_⟩
    · show some (RemoveOldest64 c) = some (RemoveOldest c)
      rw [RemoveOldest64_eq (Safe_of_Budget h hA)]
    · simp only [step, Option.some.injEq] at hs
      subst hs
      exact Budget_RemoveOldest h
  | add key value =>
    have hv := hop key value rfl
    simp only [opCost] at hA ⊢
    refine ⟨(Add64_eq h key value hv hA).2.1, fun c' hs => ?_⟩
    exact Budget_evictLoop _ (Budget_addEntry h key value hv) hs

/-- The two layers agree: when the sizes passed to `Add` are non-negative and
sum, with the budget already spent, to at most `maxInt64`, the machine run is
the ideal run, and it ends within the budget. -/
theorem run64_eq_run {V : Type} [Value V] {A : Int} {c : Cache V} (h : Budget A c)
    (ops : List (Op V)) (ho : nonnegOps ops) (hA : A + opsCost ops ≤ maxInt64) :
    run64 c ops = run c ops ∧ ∀ c', run c ops = some c' → Budget (A + opsCost ops) c' := by
  induction ops generalizing A c with
  | nil =>
    refine ⟨rfl, fun c' hr => ?_⟩
    simp only [run, Option.some.injEq] at hr
    subst hr
    simpa [opsCost] using h
  | cons op ops ih =>
    have ho2 : nonnegOps ops := fun k v hm => ho k v (List.mem_cons_of_mem _ hm)
    have hop : ∀ k v, op = Op.add k v → 0 ≤ Value.Len v :=
      fun k v hkv => ho k v (by rw [hkv]; exact List.mem_cons_self _ _)
    have h0 := opsCost_nonneg ho2
    have h1 := opCost_nonneg op hop
    rw [opsCost_cons] at hA ⊢
    obtain ⟨hs, hb⟩ := step64_eq_step h op hop (by omega)
    rw [run64_cons, run_cons, hs]
    cases hst : step c op with
    | none => exact ⟨rfl, fun c' hr => by simp at hr⟩
    | some c₁ =>
      obtain ⟨e1, e2⟩ := ih (hb c₁ hst) ho2 (by omega)
      simp only [Option.some_bind]
      refine ⟨e1, fun c' hr => ?_⟩
      have := e2 c' hr
      rw [← add_assoc]
      exact this

theorem Budget_NewCache (V : Type) [Value V] (capacity : Int) (callback : Bool) :
    Budget 0 (NewCache V capacity callback) := by
  refine ⟨WF_NewCache V capacity callback, ?_, ?_, ?_, ?_⟩
  · intro e he; simp [NewCache] at he
  · simp [NewCache, totalCost]
  · simp [NewCache, totalCost]
  · simp [NewCache]

/-- A machine run from `NewCache` whose sizes are non-negative and sum to at
most `maxInt64` is the ideal run. -/
theorem run64_NewCache {V : Type} [Value V] (capacity : Int) (callback : Bool)
    (ops : List (Op V)) (ho : nonnegOps ops) (hA : opsCost ops ≤ maxInt64) :
    run64 (NewCache V capacity callback) ops = run (NewCache V capacity callback) ops ∧
      ∀ c, run (NewCache V capacity callback) ops = some c → Budget (opsCost ops) c := by
  have := run64_eq_run (Budget_NewCache V capacity callback) ops ho (by omega)
  simpa using this

theorem RemoveOldest64_nil {V : Type} [Value V] {c : Cache V} (hl : c.doubleList = []) :
    RemoveOldest64 c = c := by
  unfold RemoveOldest64
  simp [Back, hl]

theorem length_RemoveOldest64 {V : Type} [Value V] (c : Cache V) :
    (RemoveOldest64 c).doubleList.length = c.doubleList.length - 1 := by
  unfold RemoveOldest64
  cases hb : Back c.doubleList with
  | none => simp [Back_eq_none.mp hb]
  | some e =>
    obtain ⟨l₁, hl⟩ := Back_eq_some.mp hb
    simp only [Remove]
    rw [List.length_eraseP_of_mem (a := e) (by rw [hl]; simp) (by simp)]

/-- On an empty list a machine loop whose test succeeds never stops. -/
theorem evictLoop64_stuck {V : Type} [Value V] (fuel : Nat) (c : Cache V)
    (hl : c.doubleList = []) (hc : c.capacity ≠ 0 ∧ c.used > c.capacity) :
    evictLoop64 fuel c = none := by
  induction fuel with
  | zero => rfl
  | succ n ih => rw [evictLoop64_succ, if_pos hc, RemoveOldest64_nil hl]; exact ih

/-- Fuel adequacy of the machine loop. -/
theorem evictLoop64_adequate {V : Type} [Value V] (fuel : Nat) (c c' : Cache V)
    (hr : evictLoop64 fuel c = some c') (m : Nat) (hm : c.doubleList.length + 1 ≤ m) :
    evictLoop64 m c = some c' := by
  induction fuel generalizing c m with
  | zero => simp [evictLoop64_zero] at hr
  | succ n ih =>
    obtain ⟨m, rfl⟩ : ∃ m', m = m' + 1 := ⟨m - 1, by omega⟩
    rw [evictLoop64_succ] at hr ⊢
    by_cases hc : c.capacity ≠ 0 ∧ c.used > c.capacity
    · rw [if_pos hc] at hr ⊢
      by_cases h0 : c.doubleList = []
      · rw [RemoveOldest64_nil h0] at hr
        rw [evictLoop64_stuck n c h0 hc] at hr
        cases hr
      · apply ih _ hr
        rw [length_RemoveOldest64]
        have : 0 < c.doubleList.length := List.length_pos.mpr h0
        omega
    · rw [if_neg hc] at hr ⊢
      exact hr

/-- Fuel adequacy of the machine `Add`: whenever `AddFuel64` returns for some
fuel, `Add64` returns the same state. -/
theorem AddFuel64_adequate {V : Type} [Value V] (fuel : Nat) (c c' : Cache V) (key : String)
    (value : V) (hr : AddFuel64 fuel c key value = some c') : Add64 c key value = some c' :=
  evictLoop64_adequate fuel _ c' hr _ (Nat.le_refl _)

/-- C13, counterexample: with capacity -1, `Add("a","x")` on the new cache never
returns, for any fuel: after the entry itself is evicted the list is empty,
`used` = 0 > -1, and the loop keeps calling `RemoveOldest` on the empty cache. -/
theorem C13_counterexample :
    (¬ ∃ fuel c', AddFuel64 fuel (NewCache String (-1) false) "a" "x" = some c') ∧
    Add64 (NewCache String (-1) false) "a" "x" = none ∧
    (RemoveOldest64 (addEntry64 (NewCache String (-1) false) "a" "x")).doubleList = [] ∧
    (RemoveOldest64 (addEntry64 (NewCache String (-1) false) "a" "x")).capacity ≠ 0 ∧
    (RemoveOldest64 (addEntry64 (NewCache String (-1) false) "a" "x")).used >
      (RemoveOldest64 (addEntry64 (NewCache String (-1) false) "a" "x")).capacity := by
  have hnone : Add64 (NewCache String (-1) false) "a" "x" = none := rfl
  refine ⟨?_, hnone, rfl, by decide, by decide⟩
  rintro ⟨fuel, c', h⟩
  have := AddFuel64_adequate fuel _ c' "a" "x" h
  rw [hnone] at this
  cases this

/-- C13, amended: for a capacity of at least 0, values of non-negative `Len` and
sizes `len(key) + value.Len()` passed to `Add` (this call included) that sum to
at most `maxInt64`, in every state reached from `NewCache`, `Add(key, value)`
terminates; its loop makes `j` calls of `RemoveOldest`, each while
`capacity != 0` and `used > capacity` held and on a non-empty cache, and stops
on the first state with `capacity = 0` or `used <= capacity`.  All of it with
machine arithmetic. -/
theorem C13_add_terminates_in_range {V : Type} [Value V] (capacity : Int)
    (callback : Bool) (ops : List (Op V)) (c : Cache V) (key : String) (value : V)
    (hcap : 0 ≤ capacity) (ho : nonnegOps ops) (hv : 0 ≤ Value.Len value)
    (hA : opsCost ops + ((key.utf8ByteSize : Int) + Value.Len value) ≤ maxInt64)
    (hr : run64 (NewCache V capacity callback) ops = some c) :
    ∃ c' j, Add64 c key value = some c' ∧
      c' = Nat.iterate RemoveOldest64 j (addEntry64 c key value) ∧
      (∀ i, i < j →
        ((Nat.iterate RemoveOldest64 i (addEntry64 c key value)).capacity ≠ 0 ∧
          (Nat.iterate RemoveOldest64 i (addEntry64 c key value)).used >
            (Nat.iterate RemoveOldest64 i (addEntry64 c key value)).capacity) ∧
        (Nat.iterate RemoveOldest64 i (addEntry64 c key value)).doubleList ≠ []) ∧
      (c'.capacity = 0 ∨ c'.used ≤ c'.capacity) := by
  obtain ⟨e1, e2⟩ := run64_NewCache capacity callback ops ho (by omega)
  rw [e1] at hr
  have hb := e2 c hr
  obtain ⟨c₂, hr₂, hw, hn, hc, hu⟩ := run_nonneg capacity callback ops hcap ho
  rw [hr] at hr₂
  cases hr₂
  obtain ⟨c', j, h1, h2, -, h4, h5⟩ :=
    Add_iterations hw hn (by rw [hc]; exact hcap) (fun hp => hu (by rw [hc] at hp; exact hp))
      key value hv
  obtain ⟨ea, eb, -⟩ := Add64_eq hb key value hv hA
  have hs : Safe (addEntry c key value) := Safe_of_Budget (Budget_addEntry hb key value hv) hA
  refine ⟨c', j, by rw [eb]; exact h1, ?_, ?_, h5⟩
  · rw [ea, (iterate_RemoveOldest64_eq j hs).1]; exact h2
  · intro i hi
    rw [ea, (iterate_RemoveOldest64_eq i hs).1]
    exact h4 i hi

/-- Witness of `C13_add_terminates_in_range`: capacity 3, `Add("k","12345")` on
the new cache returns, after evicting the entry itself. -/
theorem C13_add_terminates_in_range_witness :
    (0 : Int) ≤ 3 ∧ nonnegOps ([] : List (Op String)) ∧ (0 : Int) ≤ Value.Len "12345" ∧
    opsCost ([] : List (Op String)) + (("k".utf8ByteSize : Int) + Value.Len "12345")
      ≤ maxInt64 ∧
    ∃ c' j, Add64 (NewCache String 3 false) "k" "12345" = some c' ∧
      c' = Nat.iterate RemoveOldest64 j (addEntry64 (NewCache String 3 false) "k" "12345") ∧
      (c'.capacity = 0 ∨ c'.used ≤ c'.capacity) := by
  have ho : nonnegOps ([] : List (Op String)) := by intro k v hm; simp at hm
  obtain ⟨c', j, h1, h2, -, h4⟩ :=
    C13_add_terminates_in_range 3 false ([] : List (Op String)) _ "k" "12345" (by decide) ho
      (by decide) (by decide) rfl
  exact ⟨by decide, ho, by decide, by decide, c', j, h1, h2, h4⟩

theorem utf8ByteSize_bytesString (n : Nat) : (bytesString n).utf8ByteSize = n := by
  unfold bytesString
  induction n with
  | zero => rfl
  | succ n ih =>
    simp only [List.replicate_succ]
    show String.utf8ByteSize.go _ = _
    simp only [String.utf8ByteSize.go]
    have : String.utf8ByteSize.go (List.replicate n 'a') = n := ih
    rw [this]
    rfl

theorem Len_bytesString (n : Nat) : Value.Len (bytesString n) = (n : Int) := by
  show ((bytesString n).utf8ByteSize : Int) = n
  rw [utf8ByteSize_bytesString]

/-- An insertion of `k` with the empty value into the empty cache of capacity 1,
the counter being at most 0: no eviction. -/
theorem Add64_drained (u : Int) (n : Nat) (h1 : minInt64 ≤ u) (h2 : u ≤ 0) :
    Add64 (drained u n) "k" "" = some (held (u + 1) n "") := by
  have hk : (("k" : String).utf8ByteSize : Int) = 1 := by decide
  have he : Value.Len ("" : String) = 0 := by decide
  have w1 : wrap64 (1 + 0) = 1 := by decide
  have wu : wrap64 (u + 1) = u + 1 :=
    wrap64_eq (by unfold minInt64 at h1 ⊢; omega) (by unfold maxInt64; omega)
  have ha : addEntry64 (drained u n) "k" "" = held (u + 1) n "" := by
    simp only [addEntry64, drained, held, mapGet, PushFront, mapSet, mapDelete,
      List.filter_nil, hk, he, w1, wu]
  unfold Add64 AddFuel64
  rw [ha]
  simp only [held, List.length_singleton, evictLoop64_succ]
  rw [if_neg (by omega)]

/-- An update of `k`: the value is replaced, the counter is not touched. -/
theorem Add64_held (u : Int) (n : Nat) (v w : String) (h1 : minInt64 ≤ u) (h2 : u ≤ 1) :
    Add64 (held u n v) "k" w = some (held u n w) := by
  have w0 : wrap64 0 = 0 := by decide
  have wu : wrap64 u = u :=
    wrap64_eq h1 (by unfold maxInt64; omega)
  have ha : addEntry64 (held u n v) "k" w = held u n w := by
    simp only [addEntry64, held, mapGet, if_true, setValue, List.map_cons, List.map_nil, deref,
      List.find?, decide_True, MoveToFront, Remove, List.eraseP_cons, List.eraseP_nil,
      cond_true, sub_self, w0, add_zero, wu]
  unfold Add64 AddFuel64
  rw [ha]
  simp only [held, List.length_singleton, evictLoop64_succ]
  rw [if_neg (by omega)]

/-- The removal of the one entry subtracts the size of the value now stored,
with wrap-around. -/
theorem RemoveOldest64_held (u : Int) (n : Nat) (v : String) :
    RemoveOldest64 (held u n v) =
      drained (wrap64 (u - wrap64 (1 + Value.Len v))) (n + 1) := by
  have hk : (("k" : String).utf8ByteSize : Int) = 1 := by decide
  simp only [RemoveOldest64, held, Back, List.getLast?_singleton, Remove, List.eraseP_cons,
    decide_True, cond_true, mapDelete, List.filter_cons, ne_eq, not_true_eq_false,
    decide_False, List.filter_nil, hk, drained, Bool.false_eq_true, if_false]

/-- One cycle on the empty cache of capacity 1: the counter goes down by 2^30,
with wrap-around. -/
theorem drained_cycle (u : Int) (n : Nat) (h1 : minInt64 ≤ u) (h2 : u ≤ 0)
    (rest : List (Op String)) :
    run64 (drained u n)
        (Op.add "k" "" :: Op.add "k" (bytesString 1073741824) :: Op.removeOldest :: rest)
      = run64 (drained (wrap64 (u - 1073741824)) (n + 1)) rest := by
  have hb : Value.Len (bytesString 1073741824) = 1073741824 := by
    rw [Len_bytesString]; rfl
  have wb : wrap64 (1 + 1073741824) = 1 + 1073741824 := by decide
  have e1 : u + 1 - (1 + 1073741824) = u - 1073741824 := by omega
  simp only [run64_cons, step64, Add64_drained u n h1 h2,
    Add64_held (u + 1) n "" (bytesString 1073741824) (by unfold minInt64 at h1 ⊢; omega)
      (by omega),
    RemoveOldest64_held, Option.some_bind, hb, wb, e1]

theorem run64_append {V : Type} [Value V] (c : Cache V) (ops₁ ops₂ : List (Op V)) :
    run64 c (ops₁ ++ ops₂) = (run64 c ops₁).bind (fun c' => run64 c' ops₂) := by
  induction ops₁ generalizing c with
  | nil => simp [run64]
  | cons op ops ih =>
    simp only [List.cons_append, run64_cons]
    cases hs : step64 c op with
    | none => simp
    | some c₁ => simp [ih]

/-- While the counter stays in range, `m` cycles bring it down by `m` times 2^30
and leave the cache empty. -/
theorem drained_cycles (m : Nat) (u : Int) (n : Nat)
    (h1 : minInt64 + (m : Int) * 1073741824 ≤ u) (h2 : u ≤ 0) :
    run64 (drained u n) (drainCycles m) =
      some (drained (u - (m : Int) * 1073741824) (n + m)) := by
  induction m generalizing u n with
  | zero => simp [drainCycles, run64]
  | succ m ih =>
    push_cast at h1
    have hw : wrap64 (u - 1073741824) = u - 1073741824 :=
      wrap64_eq (by unfold minInt64 at h1 ⊢; omega) (by unfold maxInt64; omega)
    show run64 (drained u n)
      (Op.add "k" "" :: Op.add "k" (bytesString 1073741824) :: Op.removeOldest ::
        drainCycles m) = _
    rw [drained_cycle u n (by unfold minInt64 at h1 ⊢; omega) h2, hw,
      ih (u - 1073741824) (n + 1) (by omega) (by omega)]
    congr 2
    · push_cast; ring
    · omega

/-- A state whose counter is the exact total of its entries, that total being
at most `maxInt64`, has its counters in range. -/
theorem Safe_of_exact {V : Type} [Value V] {c : Cache V} (hw : WF c) (hn : nonnegValues c)
    (hu : c.used = totalCost c.doubleList) (hL : totalCost c.doubleList ≤ maxInt64) :
    Safe c := by
  have h0 := totalCost_nonneg hn
  refine ⟨hw, hn, hL, ?_, ?_⟩
  · unfold maxInt64; omega
  · omega

/-- An honest insertion, removal or lookup keeps the counter exact. -/
theorem exact_step64 {V : Type} [Value V] {c c' : Cache V} (hw : WF c)
    (hn : nonnegValues c) (hu : c.used = totalCost c.doubleList)
    (hL : totalCost c.doubleList ≤ maxInt64) (op : Op V) (hi : honestInsert c op)
    (hs : step64 c op = some c') :
    WF c' ∧ nonnegValues c' ∧ c'.used = totalCost c'.doubleList ∧
      totalCost c'.doubleList ≤ maxInt64 := by
  have hsafe := Safe_of_exact hw hn hu hL
  have h0 := totalCost_nonneg hn
  cases op with
  | get key =>
    simp only [step64, Option.some.injEq] at hs
    subst hs
    obtain ⟨h1, h2, h3, -, -⟩ := Budget_Get (A := maxInt64) hsafe key
    have hd := drift_Get c key
    exact ⟨h1, h2, by omega, h3⟩
  | removeOldest =>
    simp only [step64, Option.some.injEq] at hs
    subst hs
    rw [RemoveOldest64_eq hsafe]
    obtain ⟨h1, h2, h3, -, -⟩ := Safe_RemoveOldest hsafe
    have hd := drift_RemoveOldest hw
    exact ⟨h1, h2, by omega, h3⟩
  | add key value =>
    obtain ⟨hk, hv, hfit⟩ := hi
    have he : addEntry64 c key value = addEntry c key value :=
      addEntry64_eq key value (by unfold minInt64; omega) (by omega) hv (by omega) (by omega)
    have hg : mapGet c.hashmap key = none := (index_none_iff hw key).mpr hk
    have hsd : Safe (addEntry c key value) := by
      refine Safe_of_exact (WF_addEntry hw key value)
        (nonnegValues_addEntry hw hn key value hv) ?_ ?_
      · rw [addEntry_new value hg]
        simp only [PushFront, totalCost_cons, cost]
        omega
      · rw [addEntry_new value hg]
        simp only [PushFront, totalCost_cons, cost]
        omega
    have ha : Add c key value = some c' := by
      have : Add64 c key value = Add c key value := by
        unfold Add64 Add AddFuel64 AddFuel
        rw [he, evictLoop64_eq _ hsd]
      rw [← this]
      exact hs
    obtain ⟨h1, h2, h3, -, -⟩ := Budget_evictLoop (A := maxInt64) _ hsd ha
    have hd := drift_Add_insert hw hk ha
    exact ⟨h1, h2, by omega, h3⟩

theorem exact_run64 {V : Type} [Value V] {c c' : Cache V} {ops : List (Op V)} (hw : WF c)
    (hn : nonnegValues c) (hu : c.used = totalCost c.doubleList)
    (hL : totalCost c.doubleList ≤ maxInt64) (hi : honestInserts c ops)
    (hr : run64 c ops = some c') :
    nonnegValues c' ∧ c'.used = totalCost c'.doubleList := by
  induction ops generalizing c with
  | nil => simp only [run64, Option.some.injEq] at hr; subst hr; exact ⟨hn, hu⟩
  | cons op ops ih =>
    rw [run64_cons] at hr
    cases hs : step64 c op with
    | none => simp [hs] at hr
    | some c₁ =>
      simp only [hs, Option.some_bind] at hr
      obtain ⟨h1, h2, h3, h4⟩ := exact_step64 hw hn hu hL op hi.1 hs
      exact ih h1 h2 h3 h4 (hi.2 c₁ hs) hr

/-- After 2^33 cycles the cache of capacity 1 is empty and its counter is
MinInt64. -/
theorem drained_min :
    run64 (NewCache String 1 false) (drainCycles 8589934592) =
      some (drained (-9223372036854775808) 8589934592) := by
  have h0 : NewCache String 1 false = drained 0 0 := rfl
  have h1 := drained_cycles 8589934592 0 0 (by unfold minInt64; decide) (le_refl _)
  rw [h0, h1]
  have e1 : (0 : Int) - ((8589934592 : Nat) : Int) * 1073741824 = -9223372036854775808 := by
    decide
  rw [e1]

/-- From there `Add("k", "")` and the update `Add("k", v)` with `v` of 2^30 bytes
leave the one entry `k` with `used` = MinInt64 + 1. -/
theorem drained_min_held :
    run64 (drained (-9223372036854775808) 8589934592)
          [Op.add "k" "", Op.add "k" (bytesString 1073741824)] =
      some (held (-9223372036854775807) 8589934592 (bytesString 1073741824)) := by
  have s1 := Add64_drained (-9223372036854775808) 8589934592 (by unfold minInt64; decide)
    (by decide)
  have e3 : (-9223372036854775808 : Int) + 1 = -9223372036854775807 := by decide
  rw [e3] at s1
  have s2 := Add64_held (-9223372036854775807) 8589934592 "" (bytesString 1073741824)
    (by unfold minInt64; decide) (by decide)
  rw [run64_cons]
  show (Add64 _ _ _).bind _ = _
  rw [s1, Option.some_bind, run64_cons]
  show (Add64 _ _ _).bind _ = _
  rw [s2]
  rfl

theorem drained_then_held :
    run64 (NewCache String 1 false)
        (drainCycles 8589934592 ++
          [Op.add "k" "", Op.add "k" (bytesString 1073741824)]) =
      some (held (-9223372036854775807) 8589934592 (bytesString 1073741824)) := by
  rw [run64_append, drained_min, Option.some_bind, drained_min_held]

/-- C19, counterexample.  (1) With string values and capacity 1: after 2^33
times `Add("k", "")`, `Add("k", v)` (`v` of 2^30 bytes), `RemoveOldest()`, then
`Add("k", "")` and `Add("k", v)`, the cache holds `k` with cost 1 + 2^30 and
`used` = MinInt64 + 1.  The call `RemoveOldest()`, which is not an `Add` on a
present key, then changes the difference between `used` and the sum of the
entry costs from -2^63 - 2^30 to 2^63 - 2^30: the subtraction wraps.
(2) A single insertion of a value whose `Len()` is MaxInt64 into a new cache
leaves `used` = MinInt64, negative and different from the cost 1 + MaxInt64. -/
theorem C19_counterexample :
    (run64 (NewCache String 1 false)
        (drainCycles 8589934592 ++
          [Op.add "k" "", Op.add "k" (bytesString 1073741824)])).map
      (fun c => (c.used - totalCost c.doubleList,
        (RemoveOldest64 c).used - totalCost (RemoveOldest64 c).doubleList))
      = some (-9223372037928517632, 9223372035781033984) ∧
    (run64 (NewCache Sized 0 false) [Op.add "a" { n := 9223372036854775807 }]).map
      (fun c => (c.used, totalCost c.doubleList))
      = some (-9223372036854775808, 9223372036854775808) := by
  constructor
  · have hb : Value.Len (bytesString 1073741824) = 1073741824 := by
      rw [Len_bytesString]; rfl
    have hk : (("k" : String).utf8ByteSize : Int) = 1 := by decide
    rw [drained_then_held, Option.map_some', RemoveOldest64_held, hb]
    simp only [held, drained, totalCost, cost, List.map_cons, List.map_nil, List.sum_cons,
      List.sum_nil, hk, hb]
    decide
  · decide

/-- The machine `RemoveOldest` and the ideal one differ in the counter only. -/
theorem RemoveOldest64_frame {V : Type} [Value V] (c : Cache V) :
    (RemoveOldest64 c).doubleList = (RemoveOldest c).doubleList ∧
      (RemoveOldest64 c).hashmap = (RemoveOldest c).hashmap ∧
      (RemoveOldest64 c).nextPtr = (RemoveOldest c).nextPtr := by
  unfold RemoveOldest64 RemoveOldest
  cases hb : Back c.doubleList <;> exact ⟨rfl, rfl, rfl⟩

/-- The machine insertion or update step and the ideal one differ in the counter
only. -/
theorem addEntry64_frame {V : Type} [Value V] (c : Cache V) (key : String) (value : V) :
    (addEntry64 c key value).doubleList = (addEntry c key value).doubleList ∧
      (addEntry64 c key value).hashmap = (addEntry c key value).hashmap ∧
      (addEntry64 c key value).nextPtr = (addEntry c key value).nextPtr := by
  unfold addEntry64 addEntry
  cases hk : mapGet c.hashmap key <;> exact ⟨rfl, rfl, rfl⟩

theorem WF_RemoveOldest64 {V : Type} [Value V] {c : Cache V} (h : WF c) :
    WF (RemoveOldest64 c) := by
  obtain ⟨h1, h2, h3⟩ := RemoveOldest64_frame c
  exact WF_of_perm (WF_RemoveOldest h) (by rw [h1]) h2 h3

theorem WF_addEntry64 {V : Type} [Value V] {c : Cache V} (h : WF c) (key : String)
    (value : V) : WF (addEntry64 c key value) := by
  obtain ⟨h1, h2, h3⟩ := addEntry64_frame c key value
  exact WF_of_perm (WF_addEntry h key value) (by rw [h1]) h2 h3

theorem WF_evictLoop64 {V : Type} [Value V] (fuel : Nat) {c c' : Cache V} (h : WF c)
    (hr : evictLoop64 fuel c = some c') : WF c' := by
  induction fuel generalizing c with
  | zero => simp [evictLoop64_zero] at hr
  | succ n ih =>
    rw [evictLoop64_succ] at hr
    by_cases hc : c.capacity ≠ 0 ∧ c.used > c.capacity
    · rw [if_pos hc] at hr
      exact ih (WF_RemoveOldest64 h) hr
    · rw [if_neg hc] at hr
      cases hr; exact h

/-- The representation invariant holds along every machine run, whatever the
counter does. -/
theorem WF_run64 {V : Type} [Value V] {c c' : Cache V} {ops : List (Op V)} (h : WF c)
    (hr : run64 c ops = some c') : WF c' := by
  induction ops generalizing c with
  | nil => simp only [run64, Option.some.injEq] at hr; subst hr; exact h
  | cons op ops ih =>
    rw [run64_cons] at hr
    cases hs : step64 c op with
    | none => simp [hs] at hr
    | some c₁ =>
      simp only [hs, Option.some_bind] at hr
      refine ih ?_ hr
      cases op with
      | get key => simp only [step64, Option.some.injEq] at hs; subst hs; exact WF_Get h key
      | removeOldest =>
        simp only [step64, Option.some.injEq] at hs; subst hs; exact WF_RemoveOldest64 h
      | add key value => exact WF_evictLoop64 _ (WF_addEntry64 h key value) hs

/-- C19, amended: with machine arithmetic, along every call sequence from
`NewCache` in which no `Add` is called on a key present at that moment and the
values are sizes (a non-negative `Len`, and entries that together occupy at most
`maxInt64` bytes), `used` is the exact sum of `len(key) + value.Len()` over the
entries present and is not negative.  More generally, in every state reached
from `NewCache` whose values have a non-negative `Len` and whose counters are in
range (the sum is at most `maxInt64`, and `used` lies between the sum minus
`maxInt64` and `maxInt64`), `Get` and `RemoveOldest` leave the difference
between `used` and the sum unchanged, and so does an `Add` of a key that is not
present, of a value of non-negative `Len`, when the sum and `used` stay at most
`maxInt64` with the new entry. -/
theorem C19_insert_only_used_exact {V : Type} [Value V] :
    (∀ (capacity : Int) (callback : Bool) (ops : List (Op V)) (c : Cache V),
      honestInserts (NewCache V capacity callback) ops →
      run64 (NewCache V capacity callback) ops = some c →
      c.used = totalCost c.doubleList ∧ 0 ≤ c.used) ∧
    (∀ (capacity : Int) (callback : Bool) (ops : List (Op V)) (c : Cache V),
      run64 (NewCache V capacity callback) ops = some c →
      nonnegValues c → totalCost c.doubleList ≤ maxInt64 →
      totalCost c.doubleList - maxInt64 ≤ c.used → c.used ≤ maxInt64 →
      (∀ key, (Get c key).1.used - totalCost (Get c key).1.doubleList
        = c.used - totalCost c.doubleList) ∧
      ((RemoveOldest64 c).used - totalCost (RemoveOldest64 c).doubleList
        = c.used - totalCost c.doubleList) ∧
      (∀ (key : String) (value : V) (c' : Cache V), key ∉ keysOf c →
        0 ≤ Value.Len value →
        totalCost c.doubleList + ((key.utf8ByteSize : Int) + Value.Len value) ≤ maxInt64 →
        c.used + ((key.utf8ByteSize : Int) + Value.Len value) ≤ maxInt64 →
        Add64 c key value = some c' →
        c'.used - totalCost c'.doubleList = c.used - totalCost c.doubleList)) := by
  constructor
  · intro capacity callback ops c hi hr
    obtain ⟨hn, hu⟩ := exact_run64 (WF_NewCache V capacity callback)
      (by intro e he; simp [NewCache] at he) (by simp [NewCache, totalCost])
      (by simp [NewCache, totalCost, maxInt64]) hi hr
    exact ⟨hu, by rw [hu]; exact totalCost_nonneg hn⟩
  · intro capacity callback ops c hr hn h1 h2 h3
    have hw : WF c := WF_run64 (WF_NewCache V capacity callback) hr
    have hs : Safe c := ⟨hw, hn, h1, h2, h3⟩
    have h0 := totalCost_nonneg hn
    refine ⟨drift_Get c, ?_, ?_⟩
    · rw [RemoveOldest64_eq hs]
      exact drift_RemoveOldest hw
    · intro key value c' hk hv hfit hfit2 ha
      have he : addEntry64 c key value = addEntry c key value :=
        addEntry64_eq key value (by unfold minInt64; unfold maxInt64 at h2; omega) h3 hv
          hfit2 (by omega)
      have hg : mapGet c.hashmap key = none := (index_none_iff hw key).mpr hk
      have hsd : Safe (addEntry c key value) := by
        refine ⟨WF_addEntry hw key value, nonnegValues_addEntry hw hn key value hv, ?_⟩
        rw [addEntry_new value hg]
        simp only [PushFront, totalCost_cons, cost]
        refine ⟨by omega, by omega, by omega⟩
      have hadd : Add64 c key value = Add c key value := by
        unfold Add64 Add AddFuel64 AddFuel
        rw [he, evictLoop64_eq _ hsd]
      rw [hadd] at ha
      exact drift_Add_insert hw hk ha

/-- Witness of `C19_insert_only_used_exact`: capacity 10, `Add("k1","1234")` then
`Add("k2","5678")`, two insertions; `used` = 6 is the cost of the entry left. -/
theorem C19_insert_only_used_exact_witness :
    honestInserts (NewCache String 10 false) [Op.add "k1" "1234", Op.add "k2" "5678"] ∧
    run64 (NewCache String 10 false) [Op.add "k1" "1234", Op.add "k2" "5678"] =
      some (RemoveOldest64
        (addEntry64 (addEntry64 (NewCache String 10 false) "k1" "1234") "k2" "5678")) ∧
    (RemoveOldest64
        (addEntry64 (addEntry64 (NewCache String 10 false) "k1" "1234") "k2" "5678")).used
      = totalCost (RemoveOldest64
        (addEntry64 (addEntry64 (NewCache String 10 false) "k1" "1234") "k2" "5678")).doubleList ∧
    0 ≤ (RemoveOldest64
        (addEntry64 (addEntry64 (NewCache String 10 false) "k1" "1234") "k2" "5678")).used := by
  have hi : honestInserts (NewCache String 10 false)
      [Op.add "k1" "1234", Op.add "k2" "5678"] := by
    refine ⟨⟨by simp [keysOf, NewCache], by decide, by decide⟩, ?_⟩
    intro c₁ h1
    have : c₁ = addEntry64 (NewCache String 10 false) "k1" "1234" := by
      have h2 : step64 (NewCache String 10 false) (Op.add "k1" "1234") =
          some (addEntry64 (NewCache String 10 false) "k1" "1234") := rfl
      rw [h2] at h1
      exact (Option.some.inj h1).symm
    subst this
    refine ⟨⟨?_, by decide, by decide⟩, fun c₂ _ => trivial⟩
    show "k2" ∉ keysOf (addEntry64 (NewCache String 10 false) "k1" "1234")
    decide
  have h := C19_insert_only_used_exact.1 10 false _ _ hi
    (rfl : run64 (NewCache String 10 false) [Op.add "k1" "1234", Op.add "k2" "5678"] =
      some (RemoveOldest64
        (addEntry64 (addEntry64 (NewCache String 10 false) "k1" "1234") "k2" "5678")))
  exact ⟨hi, rfl, h.1, h.2⟩

end CCCache
